import Mathlib

/-!
Verification development for the SQL-lineage core of the vscode-bigquery
extension.  The TypeScript sources embedded here are:

* `src/services/sqlTableExtractor.ts` — `extractTableReferences`,
  `extractCtesWithDependencies`;
* `src/services/cteExtractor.ts` — `extractCtes`;
* `src/services/lineageService.ts` — `extractLineage`, `extractTargetTables`,
  `parseTableName`;
* `src/services/lineageGraph.ts` — `buildLineageGraph`, `calculateCteLayers`,
  `findMainQueryCteReferences`, `findMainQuerySourceReferences`,
  `getDisplayName`;
* the DAG layout module — `sortNodesInLayer` and its barycenter heuristic.

The two SQL parsers (`sql-parser-cst` and the `@bstruct/bqsql-parser` WASM
module) and the JavaScript `RegExp` engine are external collaborators of the
core: the code under verification only consumes their outputs.  They are
modelled by an oracle record `SqlOracle` whose fields describe, for a given
SQL text, exactly the observations the TypeScript code makes of them (the
table lists produced by the CST visitor walks, the group-1 captures of the
seven target-detection regexes, the match index of the main-query regex, and the
word-boundary membership tests).  All logic that lives in the repository's
own TypeScript — classification of names into CTE references vs. physical
tables, deduplication, node/edge assembly, the layer fixed point and the
barycenter ordering — is translated concretely below.  Universally
quantified theorems quantify over every oracle, hence over every possible
behaviour of the external parsers; concrete counterexamples instantiate the
oracle with the documented behaviour of the real collaborators on one
explicit input.
-/

namespace VsBq

/-! ### JavaScript string primitives

JS string operations are modelled at the character-list level so that every
definition reduces in the kernel.  `String.prototype.toLowerCase` is modelled
on the ASCII range (identifiers in the embedded code are ASCII); `\s` is
modelled by the ASCII whitespace class. -/

/-- Model of `String.prototype.toLowerCase` (ASCII range). -/
def lower (s : String) : String := ⟨s.data.map Char.toLower⟩

/-- Model of `Set.prototype.add`: append if absent, keeping insertion order
(the order `Set` iteration exposes). -/
def insertSet (l : List String) (x : String) : List String :=
  if l.contains x then l else l ++ [x]

/-- Model of `[...new Set(arr)]`: first-occurrence deduplication. -/
def dedupKeepFirst (l : List String) : List String := l.foldl insertSet []

/-- Model of `String.prototype.split('.')` on the underlying characters. -/
def splitDot : List Char → List (List Char)
  | [] => [[]]
  | c :: rest =>
    let r := splitDot rest
    if c = '.' then [] :: r else (c :: r.headD []) :: r.tail

/-- Parts of a dotted name, as strings. -/
def dotParts (s : String) : List String := (splitDot s.data).map (fun cs => ⟨cs⟩)

/-- Model of `getDisplayName` (lineageGraph.ts): the last part of a dotted
qualified name. -/
def getDisplayName (fullName : String) : String := (dotParts fullName).getLastD ""

/-- Model of `.replace(/`+"backtick"+`/g, '')`: remove every backtick. -/
def stripTicks (s : String) : String := ⟨s.data.filter (fun c => c ≠ Char.ofNat 96)⟩

/-- ASCII fragment of the JS `\s` class. -/
def isJsWs (c : Char) : Bool :=
  c = ' ' || c = '\t' || c = '\n' || c = '\r' || c = Char.ofNat 11 || c = Char.ofNat 12

/-- Model of `.replace(/\s+/g, ' ')`: collapse each whitespace run to one
space.  The flag records whether the previous character was whitespace. -/
def collapseWsAux : Bool → List Char → List Char
  | _, [] => []
  | prevWs, c :: rest =>
    if isJsWs c then
      if prevWs then collapseWsAux true rest else ' ' :: collapseWsAux true rest
    else c :: collapseWsAux false rest

/-- Model of `String.prototype.trim`. -/
def jsTrim (cs : List Char) : List Char :=
  ((cs.dropWhile isJsWs).reverse.dropWhile isJsWs).reverse

/-- Model of `sql.replace(/\s+/g, ' ').trim().substring(0, 100)` followed by
the `'...'` suffix when the original text is longer than 100 characters
(lineageService.ts). -/
def queryPreviewOf (sql : String) : String :=
  let preview : String := ⟨(jsTrim (collapseWsAux false sql.data)).take 100⟩
  preview ++ (if sql.length > 100 then "..." else "")

/-- Model of `String.prototype.substring(i)`. -/
def substrFrom (s : String) (i : Nat) : String := ⟨s.data.drop i⟩

/-! ### Data model (lineageService.ts / lineageGraph.ts / cteExtractor.ts) -/

/-- Node kinds of the lineage graph (`NodeType` in lineageGraph.ts). -/
inductive NodeType where
  | SOURCE : NodeType
  | CTE : NodeType
  | TARGET : NodeType
deriving DecidableEq, Repr

/-- A lineage-graph node (`LineageNode`).  The optional `x`/`y` layout fields
are only written by the external geometry stage and are omitted. -/
structure LineageNode where
  id : String
  name : String
  fullName : String
  nodeType : NodeType
  statementType : Option String
  layer : Nat
deriving DecidableEq, Repr

/-- A lineage-graph edge (`LineageEdge`). -/
structure LineageEdge where
  id : String
  source : String
  target : String
deriving DecidableEq, Repr

/-- The lineage graph (`LineageGraph`). -/
structure LineageGraph where
  nodes : List LineageNode
  edges : List LineageEdge
  queryPreview : String
deriving DecidableEq, Repr

/-- Table role in `LineageTable`. -/
inductive Role where
  | source : Role
  | target : Role
deriving DecidableEq, Repr

/-- A table reference (`LineageTable` in lineageService.ts). -/
structure LineageTable where
  fullName : String
  projectId : Option String
  datasetId : Option String
  tableId : String
  role : Role
  statementType : Option String
deriving DecidableEq, Repr

/-- Result of `extractLineage` (`LineageData`). -/
structure LineageData where
  sources : List LineageTable
  targets : List LineageTable
  queryPreview : String
deriving DecidableEq, Repr

/-- One regex hit of the target detector (`TargetMatch`). -/
structure TargetMatch where
  tableName : String
  statementType : String
deriving DecidableEq, Repr

/-- A CTE definition (`CteDefinition` in cteExtractor.ts). -/
structure CteDefinition where
  name : String
  range : List Nat
  sourceTables : List String
  referencedCtes : List String
deriving DecidableEq, Repr

/-- One `common_table_expr` node as observed by the CST visitor: the result
of `node.table?.name || node.table?.text` and the tables the `from_clause`
walk collects from the CTE body (`node.expr`). -/
structure CstCte where
  table : Option String
  bodyTables : List String
deriving DecidableEq, Repr

/-- Observations of one successful `sql-parser-cst` parse: the tables the
`from_clause` visitor walk collects over the whole statement (in document
order, deduplicated exactly as `findTablesInExpr` does), and the
`common_table_expr` nodes in visit order. -/
structure CstData where
  tables : List String
  cteNodes : List CstCte
deriving DecidableEq, Repr

/-- Oracle for the external collaborators.  `cst` is `none` when
`sql-parser-cst` throws on the text.  `bstructCtes` is the result of the
`@bstruct/bqsql-parser` fallback pipeline in `extractCtes` (that parser is
error-tolerant and always returns a document, so the fallback is total).  The
seven `…Caps` fields are the group-1 capture lists of the global regexes of
`extractTargetTables`, in `exec` iteration order.  `mainQueryIdx` is the
match index of `sql.match(/\)\s*(SELECT|INSERT|UPDATE|DELETE|MERGE)\s/i)`.
`wordTest nm text` is `new RegExp('\\b' + escapeRegex(nm) + '\\b', 'i').test(text)`. -/
structure SqlOracle where
  cst : String → Option CstData
  bstructCtes : String → List CteDefinition
  insertCaps : String → List String
  createTableCaps : String → List String
  createViewCaps : String → List String
  mergeCaps : String → List String
  updateCaps : String → List String
  deleteCaps : String → List String
  truncateCaps : String → List String
  mainQueryIdx : String → Option Nat
  wordTest : String → String → Bool

/-! ### Extractors -/

/-- Model of `extractTableReferences` (sqlTableExtractor.ts 79–96): the
visitor walk result on success, the empty list when the parse throws. -/
def extractTableReferences (o : SqlOracle) (sql : String) : List String :=
  match o.cst sql with
  | none => []
  | some d => d.tables

/-- JS truthiness of the extracted CTE name: `if (!name) return;` skips both
a missing and an empty name. -/
def truthyName : Option String → Option String
  | none => none
  | some s => if s = "" then none else some s

/-- Model of `extractCtesWithDependencies` (sqlTableExtractor.ts 111–174):
collect every CTE name (lower-cased) in a first pass, then classify each
table referenced in a CTE body as a CTE reference (name match, case
insensitive) or a physical source table, deduplicating each list. -/
def extractCtesWithDependencies (o : SqlOracle) (sql : String) : List CteDefinition :=
  match o.cst sql with
  | none => []
  | some d =>
    let cteNames := (d.cteNodes.filterMap (fun n => truthyName n.table)).map lower
    d.cteNodes.filterMap (fun n =>
      (truthyName n.table).map (fun nm =>
        let tables := n.bodyTables
        { name := nm
          range := []
          sourceTables := dedupKeepFirst (tables.filter (fun t => !(cteNames.contains (lower t))))
          referencedCtes := dedupKeepFirst (tables.filter (fun t => cteNames.contains (lower t))) }))

/-- Model of `extractCtes` (cteExtractor.ts 20–46): the CST-based extraction
when it finds CTEs, otherwise the `@bstruct`-based fallback walk. -/
def extractCtes (o : SqlOracle) (sql : String) : List CteDefinition :=
  let cstCtes := extractCtesWithDependencies o sql
  if cstCtes.length > 0 then cstCtes else o.bstructCtes sql

/-- Model of `extractTargetTables` (lineageService.ts): the seven pattern
groups in their fixed order; each raw capture is kept when truthy
(non-empty) and backticks are stripped. -/
def extractTargetTables (o : SqlOracle) (sql : String) : List TargetMatch :=
  let mk := fun (caps : List String) (ty : String) =>
    (caps.filter (fun c => c ≠ "")).map (fun c => TargetMatch.mk (stripTicks c) ty)
  mk (o.insertCaps sql) "INSERT"
    ++ mk (o.createTableCaps sql) "CREATE TABLE"
    ++ mk (o.createViewCaps sql) "CREATE VIEW"
    ++ mk (o.mergeCaps sql) "MERGE"
    ++ mk (o.updateCaps sql) "UPDATE"
    ++ mk (o.deleteCaps sql) "DELETE"
    ++ mk (o.truncateCaps sql) "TRUNCATE"

/-- Model of `parseTableName` (lineageService.ts): split on dots into
project/dataset/table parts. -/
def parseTableName (fullName : String) (role : Role) : LineageTable :=
  let parts := dotParts fullName
  if parts.length = 3 then
    { fullName := fullName, projectId := parts.headD "", datasetId := parts.getD 1 ""
      tableId := parts.getD 2 "", role := role, statementType := none }
  else if parts.length = 2 then
    { fullName := fullName, projectId := none, datasetId := parts.headD ""
      tableId := parts.getD 1 "", role := role, statementType := none }
  else
    { fullName := fullName, projectId := none, datasetId := none
      tableId := parts.headD "", role := role, statementType := none }

/-- State of the source-collection loop of `extractLineage`: the `seenSources`
set (lower-cased names) and the `sources` array. -/
def lineageSourcesStep (acc : List String × List LineageTable) (tn : String) :
    List String × List LineageTable :=
  if tn ≠ "" && !(acc.1.contains (lower tn)) then
    (acc.1 ++ [lower tn], acc.2 ++ [parseTableName tn Role.source])
  else acc

/-- State of the target-collection loop of `extractLineage`: the `seenTargets`
set and the `targets` array (each pushed entry carries its statement type). -/
def lineageTargetsStep (acc : List String × List LineageTable) (m : TargetMatch) :
    List String × List LineageTable :=
  if acc.1.contains (lower m.tableName) then acc
  else
    (acc.1 ++ [lower m.tableName],
      acc.2 ++ [{ parseTableName m.tableName Role.target with statementType := some m.statementType }])

/-- Final state of the source-collection loop: the `seenSources` set and the
`sources` array. -/
def srcAccOf (o : SqlOracle) (sql : String) : List String × List LineageTable :=
  (extractTableReferences o sql).foldl lineageSourcesStep ([], [])

/-- Final state of the target-collection loop: the `seenTargets` set and the
`targets` array. -/
def tgtAccOf (o : SqlOracle) (sql : String) : List String × List LineageTable :=
  (extractTargetTables o sql).foldl lineageTargetsStep ([], [])

/-- Model of `extractLineage` (lineageService.ts, CST-based version):
deduplicated sources from the table extractor, deduplicated regex targets,
sources filtered against the final `seenTargets` set, and the query
preview. -/
def extractLineage (o : SqlOracle) (sql : String) : LineageData :=
  { sources := (srcAccOf o sql).2.filter
      (fun s => !((tgtAccOf o sql).1.contains (lower s.fullName)))
    targets := (tgtAccOf o sql).2
    queryPreview := queryPreviewOf sql }

/-- Model of `findMainQueryCteReferences` (lineageGraph.ts 288–310). -/
def findMainQueryCteReferences (o : SqlOracle) (sql : String) (ctes : List CteDefinition) :
    List String :=
  let cteNames := ctes.map (fun c => lower c.name)
  match o.mainQueryIdx sql with
  | none => cteNames
  | some idx =>
    let mainQuery := lower (substrFrom sql idx)
    let referenced := cteNames.filter (fun n => o.wordTest n mainQuery)
    if referenced.length > 0 then referenced else cteNames

/-- Model of `findMainQuerySourceReferences` (lineageGraph.ts 315–348).  Note
the source guards on `mainQueryMatch.index` being truthy, so a match at
index 0 leaves the whole text in place. -/
def findMainQuerySourceReferences (o : SqlOracle) (sql : String)
    (allSourceTables : List String) (cteNames : List String) : List String :=
  let mainQuery0 :=
    match o.mainQueryIdx sql with
    | some idx => if idx ≠ 0 then substrFrom sql idx else sql
    | none => sql
  let mainQuery := lower mainQuery0
  allSourceTables.filter (fun t =>
    !(cteNames.contains t) && o.wordTest ((dotParts t).getLastD "") mainQuery)

/-! ### Layer assignment (`calculateCteLayers`, lineageGraph.ts 222–283)

The JS `Map<string, number>` is modelled as an association list: `get` is
the first-match lookup, `set` replaces the value in place when the key
exists and appends otherwise, and `values()` iterates the second
components. -/

/-- Layer map: association list with JS `Map` semantics. -/
abbrev LayerMap := List (String × Nat)

/-- Model of `Map.prototype.set`. -/
def mapSet (m : LayerMap) (k : String) (v : Nat) : LayerMap :=
  if (m.lookup k).isSome then m.map (fun p => if p.1 = k then (k, v) else p)
  else m ++ [(k, v)]

/-- Inner loop over `cte.referencedCtes` (lineageGraph.ts 253–264): collect
the layers of the references that are known CTE names, failing (`none`,
i.e. `allResolved = false`) as soon as a known reference is unlayered. -/
def resolveRefs (layers : LayerMap) (cteNames : List String) : List String → Option (List Nat)
  | [] => some []
  | r :: rs =>
    if cteNames.contains (lower r) then
      match layers.lookup (lower r) with
      | some l => (resolveRefs layers cteNames rs).map (fun t => l :: t)
      | none => none
    else resolveRefs layers cteNames rs

/-- Initialization pass (lineageGraph.ts 227–234): CTEs with no known CTE
dependency get layer 1. -/
def initLayers (ctes : List CteDefinition) (cteNames : List String) : LayerMap :=
  ctes.foldl (fun m cte =>
    if cte.referencedCtes.any (fun r => cteNames.contains (lower r)) then m
    else mapSet m (lower cte.name) 1) []

/-- One body execution of the `for (const cte of ctes)` loop inside the
`while` (lineageGraph.ts 245–271); the Bool is the `changed` flag. -/
def layerRoundStep (cteNames : List String) (acc : LayerMap × Bool) (cte : CteDefinition) :
    LayerMap × Bool :=
  if (acc.1.lookup (lower cte.name)).isSome then acc
  else
    match resolveRefs acc.1 cteNames cte.referencedCtes with
    | none => acc
    | some refLayers =>
      let maxRefLayer := if refLayers.length > 0 then refLayers.foldl max 0 else 0
      (mapSet acc.1 (lower cte.name) (maxRefLayer + 1), true)

/-- One round of the `while` loop, starting with `changed = false`. -/
def layerRound (ctes : List CteDefinition) (cteNames : List String) (m : LayerMap) :
    LayerMap × Bool :=
  ctes.foldl (layerRoundStep cteNames) (m, false)

/-- The `while (changed && iterations < maxIterations)` loop, with the
remaining iteration budget as fuel. -/
def layerLoop (ctes : List CteDefinition) (cteNames : List String) : Nat → LayerMap → LayerMap
  | 0, m => m
  | fuel + 1, m =>
    let r := layerRound ctes cteNames m
    if r.2 then layerLoop ctes cteNames fuel r.1 else r.1

/-- Layer map after initialization and the bounded fixed-point iteration
(`maxIterations = ctes.length + 1`), before the forced pass. -/
def cteLayersPostIter (ctes : List CteDefinition) : LayerMap :=
  let cteNames := ctes.map (fun c => lower c.name)
  layerLoop ctes cteNames (ctes.length + 1) (initLayers ctes cteNames)

/-- The forced pass (lineageGraph.ts 274–280): every still-unlayered CTE is
assigned layer 1. -/
def forcedPass (ctes : List CteDefinition) (m : LayerMap) : LayerMap :=
  ctes.foldl (fun m cte =>
    if (m.lookup (lower cte.name)).isSome then m else mapSet m (lower cte.name) 1) m

/-- Model of `calculateCteLayers` (lineageGraph.ts 222–283): the iterated
map with every still-unlayered CTE forced to layer 1. -/
def calculateCteLayers (ctes : List CteDefinition) : LayerMap :=
  forcedPass ctes (cteLayersPostIter ctes)

/-! ### Graph builder (`buildLineageGraph`, lineageGraph.ts 32–215) -/

/-- Model of `cteLayers.get(...) || 1` : JS `||` also replaces a zero. -/
def jsOrNat (x : Option Nat) (d : Nat) : Nat :=
  match x with
  | none => d
  | some v => if v = 0 then d else v

/-- Source-table node (lineageGraph.ts 71–79); `t` is already lower-cased. -/
def mkSourceNode (t : String) : LineageNode :=
  { id := "source_" ++ t, name := getDisplayName t, fullName := t
    nodeType := NodeType.SOURCE, statementType := none, layer := 0 }

/-- CTE node (lineageGraph.ts 86–95). -/
def mkCteNode (layers : LayerMap) (c : CteDefinition) : LineageNode :=
  { id := "cte_" ++ lower c.name, name := c.name, fullName := c.name
    nodeType := NodeType.CTE, statementType := none
    layer := jsOrNat (layers.lookup (lower c.name)) 1 }

/-- Target node (lineageGraph.ts 104–118). -/
def mkTargetNode (targetLayer : Nat) (t : LineageTable) : LineageNode :=
  { id := "target_" ++ lower t.fullName, name := getDisplayName t.fullName
    fullName := t.fullName, nodeType := NodeType.TARGET
    statementType := t.statementType, layer := targetLayer }

/-- Last-binding association lookup: the value of the most recent `set` for
a key within one entry list. -/
def assocLast (l : List (String × LineageNode)) (k : String) : Option LineageNode :=
  l.reverse.lookup k

/-- Final state of `nodeMap` after the three node-creation stages: targets
were `set` last, then CTEs, then sources. -/
def nodeMapOf (srcEntries cteEntries tgtEntries : List (String × LineageNode)) (k : String) :
    Option LineageNode :=
  match assocLast tgtEntries k with
  | some n => some n
  | none =>
    match assocLast cteEntries k with
    | some n => some n
    | none => assocLast srcEntries k

/-- Edge construction (lineageGraph.ts 134–138 etc.). -/
def mkEdge (s t : String) : LineageEdge :=
  { id := "edge_" ++ s ++ "_" ++ t, source := s, target := t }

/-- The `allSourceTables` set (lineageGraph.ts 54–64): the lower-cased main
query sources followed by every table referenced inside a CTE body. -/
def allSourceTablesOf (basicSources : List LineageTable) (ctes : List CteDefinition) :
    List String :=
  ctes.foldl (fun s cte => cte.sourceTables.foldl (fun s t => insertSet s (lower t)) s)
    (basicSources.foldl (fun s src => insertSet s (lower src.fullName)) [])

/-- Lower-cased CTE name list (`new Set(ctes.map(c => c.name.toLowerCase()))`;
only membership and order of first occurrence matter). -/
def cteNamesOf (ctes : List CteDefinition) : List String := ctes.map (fun c => lower c.name)

/-- The CTE list of one `buildLineageGraph` run. -/
def bgCtes (o : SqlOracle) (sql : String) : List CteDefinition := extractCtes o sql

/-- The `basicLineage` of one run. -/
def bgBasic (o : SqlOracle) (sql : String) : LineageData := extractLineage o sql

/-- The `allSourceTables` set of one run. -/
def bgAllSourceTables (o : SqlOracle) (sql : String) : List String :=
  allSourceTablesOf (bgBasic o sql).sources (bgCtes o sql)

/-- Source-table names that become SOURCE nodes (CTE names skipped,
lineageGraph.ts 67–69). -/
def bgSourceTableNames (o : SqlOracle) (sql : String) : List String :=
  (bgAllSourceTables o sql).filter (fun t => !((cteNamesOf (bgCtes o sql)).contains t))

/-- The layer map of one run. -/
def bgLayers (o : SqlOracle) (sql : String) : LayerMap := calculateCteLayers (bgCtes o sql)

/-- The target layer: `Math.max(0, ...cteLayers.values()) + 1`. -/
def bgTargetLayer (o : SqlOracle) (sql : String) : Nat :=
  ((bgLayers o sql).map (fun p => p.2)).foldl max 0 + 1

/-- Targets that become TARGET nodes (CTE names skipped, lineageGraph.ts
104–107). -/
def bgGraphTargets (o : SqlOracle) (sql : String) : List LineageTable :=
  (bgBasic o sql).targets.filter
    (fun t => !((cteNamesOf (bgCtes o sql)).contains (lower t.fullName)))

/-- Entries written to `nodeMap` by the SOURCE stage. -/
def bgSrcEntries (o : SqlOracle) (sql : String) : List (String × LineageNode) :=
  (bgSourceTableNames o sql).map (fun t => (t, mkSourceNode t))

/-- Entries written to `nodeMap` by the CTE stage. -/
def bgCteEntries (o : SqlOracle) (sql : String) : List (String × LineageNode) :=
  (bgCtes o sql).map (fun c => (lower c.name, mkCteNode (bgLayers o sql) c))

/-- Entries written to `nodeMap` by the TARGET stage. -/
def bgTgtEntries (o : SqlOracle) (sql : String) : List (String × LineageNode) :=
  (bgGraphTargets o sql).map (fun t => (lower t.fullName, mkTargetNode (bgTargetLayer o sql) t))

/-- Final `nodeMap` of one run. -/
def bgNm (o : SqlOracle) (sql : String) : String → Option LineageNode :=
  nodeMapOf (bgSrcEntries o sql) (bgCteEntries o sql) (bgTgtEntries o sql)

/-- The node list of one run (push order: sources, CTEs, targets). -/
def bgNodes (o : SqlOracle) (sql : String) : List LineageNode :=
  (bgSourceTableNames o sql).map mkSourceNode
    ++ (bgCtes o sql).map (mkCteNode (bgLayers o sql))
    ++ (bgGraphTargets o sql).map (mkTargetNode (bgTargetLayer o sql))

/-- CTE edge group (lineageGraph.ts 126–153): edges from each CTE's source
tables and referenced CTEs into the CTE. -/
def bgCteEdges (o : SqlOracle) (sql : String) : List LineageEdge :=
  (bgCtes o sql).flatMap (fun cte =>
    match bgNm o sql (lower cte.name) with
    | none => []
    | some cteNode =>
      cte.sourceTables.filterMap
          (fun st => (bgNm o sql (lower st)).map (fun sn => mkEdge sn.id cteNode.id))
        ++ cte.referencedCtes.filterMap
          (fun rc => (bgNm o sql (lower rc)).map (fun rn => mkEdge rn.id cteNode.id)))

/-- The `mainQueryCtes` list of one run (lineageGraph.ts 158). -/
def bgMainQueryCtes (o : SqlOracle) (sql : String) : List String :=
  if (bgCtes o sql).length > 0 then findMainQueryCteReferences o sql (bgCtes o sql) else []

/-- The `mainQuerySources` list of one run (lineageGraph.ts 161). -/
def bgMainQuerySources (o : SqlOracle) (sql : String) : List String :=
  findMainQuerySourceReferences o sql (bgAllSourceTables o sql) (cteNamesOf (bgCtes o sql))

/-- Target edge group (lineageGraph.ts 155–205). -/
def bgTargetEdges (o : SqlOracle) (sql : String) : List LineageEdge :=
  if (bgBasic o sql).targets.length > 0 then
    (bgBasic o sql).targets.flatMap (fun target =>
      match bgNm o sql (lower target.fullName) with
      | none => []
      | some targetNode =>
        (bgMainQueryCtes o sql).filterMap
            (fun cn => (bgNm o sql (lower cn)).map (fun c => mkEdge c.id targetNode.id))
          ++ (bgMainQuerySources o sql).filterMap
            (fun sn => (bgNm o sql (lower sn)).map (fun s => mkEdge s.id targetNode.id))
          ++ (if (bgMainQueryCtes o sql).length = 0 && (bgMainQuerySources o sql).length = 0
                  && (bgCtes o sql).length = 0 then
                (bgBasic o sql).sources.filterMap
                  (fun src => (bgNm o sql (lower src.fullName)).map
                    (fun s => mkEdge s.id targetNode.id))
              else []))
  else []

/-- Model of `buildLineageGraph` (lineageGraph.ts 32–215), assembled from
the stage definitions above (which mirror its `let` bindings). -/
def buildLineageGraph (o : SqlOracle) (sql : String) : LineageGraph :=
  { nodes := bgNodes o sql
    edges := bgCteEdges o sql ++ bgTargetEdges o sql
    queryPreview := (bgBasic o sql).queryPreview }

/-! ### Barycenter ordering (`sortNodesInLayer`, dagLayout module)

JavaScript `Array.prototype.sort` is a stable sort by the comparator, so it
is modelled by `List.mergeSort` with the boolean reflection of the
comparator's total preorder.  `localeCompare` on the ASCII display names is
modelled by the codepoint order on strings, and JS numbers (the barycenter
`sum / count` with `Infinity` for unconnected nodes) by `Option ℚ` with
`none` playing `Infinity`. -/

/-- The `prevPositions` map: index of a node id in the previous layer (the
last write wins when an id repeats). -/
def prevPosOf (prevLayerNodes : List LineageNode) (i : String) : Option Nat :=
  (prevLayerNodes.enum.map (fun p => (p.2.id, p.1))).reverse.lookup i

/-- Barycenter of one node id (dagLayout module, `sortNodesInLayer` body):
`none` models `Infinity` — a node with no incoming edge, or whose incoming
edges all originate outside the previous layer; otherwise the mean of the
previous-layer positions of its in-edge sources. -/
def barycenterOf (edges : List LineageEdge) (prevLayerNodes : List LineageNode)
    (nodeId : String) : Option ℚ :=
  let incoming := edges.filter (fun e => e.target = nodeId)
  if incoming.length = 0 then none
  else
    let ps := incoming.filterMap (fun e => prevPosOf prevLayerNodes e.source)
    if ps.length = 0 then none
    else some ((ps.foldl (fun acc p => acc + (p : ℚ)) 0) / (ps.length : ℚ))

/-- Boolean comparator for the alphabetical sort of layer 0. -/
def nameLe (a b : LineageNode) : Bool := decide (a.name ≤ b.name)

/-- Boolean comparator reflecting the barycenter comparator of the source:
compare barycenters (`Infinity` last), break ties by display name. -/
def baryLe (bary : String → Option ℚ) (a b : LineageNode) : Bool :=
  match bary a.id, bary b.id with
  | some x, some y => if x = y then decide (a.name ≤ b.name) else decide (x ≤ y)
  | some _, none => true
  | none, some _ => false
  | none, none => decide (a.name ≤ b.name)

/-- Model of `allLayers.get(prevLayer) || []`. -/
def allLayersGet (allLayers : List (Nat × List LineageNode)) (k : Nat) : List LineageNode :=
  (allLayers.lookup k).getD []

/-- Model of `sortNodesInLayer` (dagLayout module, lines 103–161). -/
def sortNodesInLayer (layerNodes : List LineageNode) (graph : LineageGraph)
    (allLayers : List (Nat × List LineageNode)) : List LineageNode :=
  if layerNodes.length ≤ 1 then layerNodes
  else
    match layerNodes with
    | [] => []
    | n0 :: _ =>
      if n0.layer = 0 then layerNodes.mergeSort nameLe
      else
        let prevLayerNodes := allLayersGet allLayers (n0.layer - 1)
        layerNodes.mergeSort (baryLe (barycenterOf graph.edges prevLayerNodes))

/-! ### Concrete collaborator instances

Each oracle below records the behaviour of the external collaborators
(`sql-parser-cst`, the `@bstruct` fallback, and the JS regexes of
`extractTargetTables` / `findMainQuery…`) on one explicit SQL text; only the
value at that text is meaningful.  The recorded values are the documented
behaviour of the real libraries: the CST `from_clause` walk lists every
table in document order (including inside CTE bodies), the
`common_table_expr` visitor fires once per CTE definition, and the target
regexes scan the raw text. -/

/-- Empty capture list for regex groups that do not match. -/
def emptyCaps : String → List String := fun _ => []

/-- Syntactically invalid text: both parsers reject it, yet the INSERT regex
captures `t`. -/
def sql1 : String := "INSERT INTO t ((("

/-- Collaborator behaviour on `sql1`: the CST parser throws (unbalanced
parentheses), the fallback finds no `QueryWith`, and only the INSERT
pattern `INSERT\s+(?:INTO\s+)?…` matches, capturing `t`. -/
def oracle1 : SqlOracle :=
  { cst := fun _ => none, bstructCtes := fun _ => []
    insertCaps := fun _ => ["t"], createTableCaps := emptyCaps, createViewCaps := emptyCaps
    mergeCaps := emptyCaps, updateCaps := emptyCaps, deleteCaps := emptyCaps
    truncateCaps := emptyCaps, mainQueryIdx := fun _ => none, wordTest := fun _ _ => false }

/-- Wholly unparseable text on which no target pattern matches either. -/
def sql0 : String := "((( not sql"

/-- Collaborator behaviour on `sql0`: every extraction is empty. -/
def oracle0 : SqlOracle :=
  { cst := fun _ => none, bstructCtes := fun _ => []
    insertCaps := emptyCaps, createTableCaps := emptyCaps, createViewCaps := emptyCaps
    mergeCaps := emptyCaps, updateCaps := emptyCaps, deleteCaps := emptyCaps
    truncateCaps := emptyCaps, mainQueryIdx := fun _ => none, wordTest := fun _ _ => false }

/-- A statement whose CTE reads table `x` while the statement writes `x`. -/
def sql2 : String := "CREATE OR REPLACE TABLE x AS WITH c AS (SELECT * FROM x) SELECT * FROM c"

/-- Collaborator behaviour on `sql2`: the CST walk sees `FROM x` (inside the
CTE body) and `FROM c`; the CTE visitor sees `c` with body table `x`; the
CREATE TABLE regex captures `x`; the main-query regex matches at the `)` at
index 55; only the word test for `c` succeeds on the main-query substring
`) select * from c`. -/
def oracle2 : SqlOracle :=
  { cst := fun _ => some { tables := ["x", "c"]
                           cteNodes := [{ table := some "c", bodyTables := ["x"] }] }
    bstructCtes := fun _ => []
    insertCaps := emptyCaps, createTableCaps := fun _ => ["x"], createViewCaps := emptyCaps
    mergeCaps := emptyCaps, updateCaps := emptyCaps, deleteCaps := emptyCaps
    truncateCaps := emptyCaps, mainQueryIdx := fun _ => some 55
    wordTest := fun n _ => n == "c" }

/-- The spec's own self-reference test input. -/
def sql3 : String := "WITH r AS (SELECT * FROM r) SELECT * FROM r"

/-- Collaborator behaviour on `sql3`: table walk sees `r` (deduplicated);
CTE visitor sees `r` with body table `r`; no target pattern matches; the
main-query regex matches at the `)` at index 26. -/
def oracle3 : SqlOracle :=
  { cst := fun _ => some { tables := ["r"]
                           cteNodes := [{ table := some "r", bodyTables := ["r"] }] }
    bstructCtes := fun _ => []
    insertCaps := emptyCaps, createTableCaps := emptyCaps, createViewCaps := emptyCaps
    mergeCaps := emptyCaps, updateCaps := emptyCaps, deleteCaps := emptyCaps
    truncateCaps := emptyCaps, mainQueryIdx := fun _ => some 26
    wordTest := fun n _ => n == "r" }

/-- Mutually referencing CTEs. -/
def sql4 : String := "WITH a AS (SELECT * FROM b), b AS (SELECT * FROM a) SELECT * FROM a"

/-- Collaborator behaviour on `sql4`: tables `b`, `a` in document order; CTE
visitor sees `a` (body table `b`) then `b` (body table `a`); no target
pattern; main-query regex matches at the `)` at index 50. -/
def oracle4 : SqlOracle :=
  { cst := fun _ => some { tables := ["b", "a"]
                           cteNodes := [{ table := some "a", bodyTables := ["b"] },
                                        { table := some "b", bodyTables := ["a"] }] }
    bstructCtes := fun _ => []
    insertCaps := emptyCaps, createTableCaps := emptyCaps, createViewCaps := emptyCaps
    mergeCaps := emptyCaps, updateCaps := emptyCaps, deleteCaps := emptyCaps
    truncateCaps := emptyCaps, mainQueryIdx := fun _ => some 50
    wordTest := fun n _ => n == "a" }

/-- A statement defining the same CTE name twice. -/
def sql5 : String := "WITH a AS (SELECT 1), a AS (SELECT 2) SELECT * FROM a"

/-- Collaborator behaviour on `sql5`: the syntax-level CST parser accepts
duplicate CTE names; the visitor fires once per definition; the main-query
regex matches at the `)` at index 36. -/
def oracle5 : SqlOracle :=
  { cst := fun _ => some { tables := ["a"]
                           cteNodes := [{ table := some "a", bodyTables := [] },
                                        { table := some "a", bodyTables := [] }] }
    bstructCtes := fun _ => []
    insertCaps := emptyCaps, createTableCaps := emptyCaps, createViewCaps := emptyCaps
    mergeCaps := emptyCaps, updateCaps := emptyCaps, deleteCaps := emptyCaps
    truncateCaps := emptyCaps, mainQueryIdx := fun _ => some 36
    wordTest := fun n _ => n == "a" }

/-- A CTE reading the same table under two spellings. -/
def sql6 : String := "WITH c AS (SELECT * FROM T JOIN t ON 1 = 1) SELECT * FROM c"

/-- Collaborator behaviour on `sql6`: `findTablesInExpr` deduplicates by
exact string, so both `T` and `t` are reported; the CTE visitor sees `c`
with body tables `T`, `t`; no target pattern; main-query regex matches at
the `)` at index 42. -/
def oracle6 : SqlOracle :=
  { cst := fun _ => some { tables := ["T", "t", "c"]
                           cteNodes := [{ table := some "c", bodyTables := ["T", "t"] }] }
    bstructCtes := fun _ => []
    insertCaps := emptyCaps, createTableCaps := emptyCaps, createViewCaps := emptyCaps
    mergeCaps := emptyCaps, updateCaps := emptyCaps, deleteCaps := emptyCaps
    truncateCaps := emptyCaps, mainQueryIdx := fun _ => some 42
    wordTest := fun n _ => n == "c" }

/-- Chain of CTEs feeding a written target (spec §8's chained example with a
CREATE TABLE wrapper). -/
def sql7 : String :=
  "CREATE TABLE out1 AS WITH c1 AS (SELECT * FROM t1), c2 AS (SELECT * FROM c1) SELECT * FROM c2"

/-- Collaborator behaviour on `sql7`: tables `t1`, `c1`, `c2`; CTE visitor
sees `c1` (body `t1`) and `c2` (body `c1`); CREATE TABLE captures `out1`;
the main-query regex matches at the `)` at index 75; only the word test for
`c2` succeeds on `) SELECT * FROM c2` lower-cased. -/
def oracle7 : SqlOracle :=
  { cst := fun _ => some { tables := ["t1", "c1", "c2"]
                           cteNodes := [{ table := some "c1", bodyTables := ["t1"] },
                                        { table := some "c2", bodyTables := ["c1"] }] }
    bstructCtes := fun _ => []
    insertCaps := emptyCaps, createTableCaps := fun _ => ["out1"], createViewCaps := emptyCaps
    mergeCaps := emptyCaps, updateCaps := emptyCaps, deleteCaps := emptyCaps
    truncateCaps := emptyCaps, mainQueryIdx := fun _ => some 75
    wordTest := fun n _ => n == "c2" }

/-- CTE definition list with two case-variant definitions of the same name:
used against `calculateCteLayers` directly. -/
def ctesDup : List CteDefinition :=
  [{ name := "a", range := [], sourceTables := [], referencedCtes := [] },
   { name := "A", range := [], sourceTables := [], referencedCtes := ["a"] }]

/-! ### General lemmas about the string and container models -/

theorem toLower_eq_self {c : Char} (h : ¬ (65 ≤ c.toNat ∧ c.toNat ≤ 90)) : c.toLower = c := by
  unfold Char.toLower
  rw [if_neg]
  intro hc
  exact h ⟨hc.1, hc.2⟩

theorem toLower_toNat_of_upper {c : Char} (h : 65 ≤ c.toNat ∧ c.toNat ≤ 90) :
    (c.toLower).toNat = c.toNat + 32 := by
  unfold Char.toLower
  simp only [ge_iff_le, h.1, h.2, and_self, if_true]
  have hv : (c.toNat + 32).isValidChar := Or.inl (by omega)
  rw [Char.ofNat, dif_pos hv]
  rfl

theorem char_toLower_idem (c : Char) : c.toLower.toLower = c.toLower := by
  by_cases h : 65 ≤ c.toNat ∧ c.toNat ≤ 90
  · have h1 : (c.toLower).toNat = c.toNat + 32 := toLower_toNat_of_upper h
    exact toLower_eq_self (by omega)
  · rw [toLower_eq_self h, toLower_eq_self h]

theorem lower_idem (s : String) : lower (lower s) = lower s := by
  unfold lower
  apply String.ext
  simp [List.map_map, Function.comp_def, char_toLower_idem]

theorem contains_iff {l : List String} {x : String} : l.contains x = true ↔ x ∈ l := by
  rw [List.contains]
  exact List.elem_iff

theorem mem_insertSet {l : List String} {x y : String} :
    y ∈ insertSet l x ↔ y ∈ l ∨ y = x := by
  unfold insertSet
  by_cases h : l.contains x = true
  · rw [if_pos h]
    have hx : x ∈ l := contains_iff.mp h
    constructor
    · exact Or.inl
    · rintro (hy | rfl)
      · exact hy
      · exact hx
  · rw [if_neg h]
    simp

theorem insertSet_nodup {l : List String} {x : String} (h : l.Nodup) :
    (insertSet l x).Nodup := by
  unfold insertSet
  by_cases hc : l.contains x = true
  · rwa [if_pos hc]
  · rw [if_neg hc]
    refine List.Nodup.append h (List.nodup_singleton x) ?_
    intro a ha hb
    simp only [List.mem_singleton] at hb
    subst hb
    exact (fun hm => hc (contains_iff.mpr hm)) ha

theorem length_insertSet_le {l : List String} {x : String} :
    (insertSet l x).length ≤ l.length + 1 := by
  unfold insertSet
  by_cases h : l.contains x = true
  · rw [if_pos h]; omega
  · rw [if_neg h]; simp

theorem mem_foldl_insert {α : Type} (f : α → String) (l : List α) (init : List String)
    (x : String) :
    x ∈ l.foldl (fun s a => insertSet s (f a)) init ↔ x ∈ init ∨ ∃ a ∈ l, x = f a := by
  induction l generalizing init with
  | nil => simp
  | cons a t ih =>
    rw [List.foldl_cons, ih, mem_insertSet]
    constructor
    · rintro ((hx | rfl) | ⟨b, hb, rfl⟩)
      · exact Or.inl hx
      · exact Or.inr ⟨a, by simp⟩
      · exact Or.inr ⟨b, by simp [hb]⟩
    · rintro (hx | ⟨b, hb, rfl⟩)
      · exact Or.inl (Or.inl hx)
      · rcases List.mem_cons.mp hb with hb | hb
        · subst hb
          exact Or.inl (Or.inr rfl)
        · exact Or.inr ⟨b, hb, rfl⟩

theorem nodup_foldl_insert {α : Type} (f : α → String) (l : List α) (init : List String)
    (h : init.Nodup) :
    (l.foldl (fun s a => insertSet s (f a)) init).Nodup := by
  induction l generalizing init with
  | nil => simpa
  | cons a t ih => exact ih _ (insertSet_nodup h)

theorem mem_dedupKeepFirst {l : List String} {x : String} :
    x ∈ dedupKeepFirst l ↔ x ∈ l := by
  unfold dedupKeepFirst
  have h := mem_foldl_insert (fun s : String => s) l [] x
  simp only [List.not_mem_nil, false_or] at h
  constructor
  · intro hx
    rcases h.mp hx with ⟨a, ha, rfl⟩
    exact ha
  · intro hx
    exact h.mpr ⟨x, hx, rfl⟩

theorem length_dedupKeepFirst_le (l : List String) : (dedupKeepFirst l).length ≤ l.length := by
  unfold dedupKeepFirst
  suffices h : ∀ init : List String, (l.foldl insertSet init).length ≤ init.length + l.length by
    simpa using h []
  induction l with
  | nil => simp
  | cons a t ih =>
    intro init
    calc ((a :: t).foldl insertSet init).length
        = (t.foldl insertSet (insertSet init a)).length := rfl
      _ ≤ (insertSet init a).length + t.length := ih _
      _ ≤ init.length + 1 + t.length := by
          have := length_insertSet_le (l := init) (x := a)
          omega
      _ = init.length + (a :: t).length := by simp [List.length_cons]; omega

theorem nodup_dedupKeepFirst (l : List String) : (dedupKeepFirst l).Nodup :=
  nodup_foldl_insert (fun s => s) l [] List.nodup_nil

theorem lookup_cons_eq {β : Type} (k a : String) (b : β) (es : List (String × β)) :
    List.lookup k ((a, b) :: es) = if k = a then some b else List.lookup k es := by
  rw [List.lookup_cons]
  by_cases h : k = a
  · rw [if_pos h, show (k == a) = true from beq_iff_eq.mpr h]
  · rw [if_neg h, show (k == a) = false from beq_eq_false_iff_ne.mpr h]

theorem lookup_mem {β : Type} {k : String} {l : List (String × β)} {v : β}
    (h : l.lookup k = some v) : (k, v) ∈ l := by
  induction l with
  | nil => simp [List.lookup] at h
  | cons p t ih =>
    rcases p with ⟨a, b⟩
    rw [lookup_cons_eq] at h
    by_cases hk : k = a
    · rw [if_pos hk] at h
      injection h with h
      subst h
      subst hk
      exact List.mem_cons_self _ _
    · rw [if_neg hk] at h
      exact List.mem_cons_of_mem _ (ih h)

theorem lookup_eq_none_of_forall {β : Type} {k : String} {l : List (String × β)}
    (h : ∀ p ∈ l, p.1 ≠ k) : l.lookup k = none := by
  induction l with
  | nil => rfl
  | cons p t ih =>
    rcases p with ⟨a, b⟩
    rw [lookup_cons_eq]
    rw [if_neg (fun hk => h (a, b) (List.mem_cons_self _ _) hk.symm)]
    exact ih (fun q hq => h q (List.mem_cons_of_mem _ hq))

theorem lookup_isSome_of_mem {β : Type} {k : String} {v : β} {l : List (String × β)}
    (h : (k, v) ∈ l) : (l.lookup k).isSome := by
  induction l with
  | nil => simp at h
  | cons p t ih =>
    rcases p with ⟨a, b⟩
    rw [lookup_cons_eq]
    by_cases hk : k = a
    · simp [hk]
    · rw [if_neg hk]
      rcases List.mem_cons.mp h with hp | hp
      · exact absurd (congrArg Prod.fst hp) hk
      · exact ih hp

theorem assocLast_eq_some_mem {l : List (String × LineageNode)} {k : String} {n : LineageNode}
    (h : assocLast l k = some n) : (k, n) ∈ l := by
  unfold assocLast at h
  exact List.mem_reverse.mp (lookup_mem h)

theorem assocLast_eq_none_of_forall {l : List (String × LineageNode)} {k : String}
    (h : ∀ p ∈ l, p.1 ≠ k) : assocLast l k = none := by
  unfold assocLast
  exact lookup_eq_none_of_forall (fun p hp => h p (List.mem_reverse.mp hp))

theorem assocLast_isSome_of_mem {l : List (String × LineageNode)} {k : String}
    {n : LineageNode} (h : (k, n) ∈ l) : (assocLast l k).isSome := by
  unfold assocLast
  exact lookup_isSome_of_mem (List.mem_reverse.mpr h)

/-! String id-tag discrimination: node ids are one of the three tags followed
by the map key, and the tag's first character distinguishes the kinds. -/

theorem append_tag_inj {tag k1 k2 : String} (h : tag ++ k1 = tag ++ k2) : k1 = k2 := by
  apply String.ext
  have hd := congrArg String.data h
  rw [String.data_append, String.data_append] at hd
  exact List.append_cancel_left hd

theorem tag_ne_of_head {t1 t2 k1 k2 : String} {c1 c2 : Char}
    (h1 : t1.data.head? = some c1) (h2 : t2.data.head? = some c2) (hne : c1 ≠ c2) :
    t1 ++ k1 ≠ t2 ++ k2 := by
  intro h
  have hd := congrArg String.data h
  rw [String.data_append, String.data_append] at hd
  have hh : (t1.data ++ k1.data).head? = (t2.data ++ k2.data).head? := by rw [hd]
  rcases ht1 : t1.data with _ | ⟨a, t⟩
  · rw [ht1] at h1; simp at h1
  · rcases ht2 : t2.data with _ | ⟨b, t'⟩
    · rw [ht2] at h2; simp at h2
    · rw [ht1] at h1 hh
      rw [ht2] at h2 hh
      simp only [List.cons_append, List.head?_cons] at hh h1 h2
      injection h1 with h1
      injection h2 with h2
      subst h1; subst h2
      exact hne (by injection hh)

/-! ### Counterexamples -/

/-- Counterexample to C1: on `sql1` both parsers reject the text (the CST
oracle is `none` and the fallback is empty), yet the graph is not empty —
the regex-detected INSERT target still becomes a node. -/
theorem C1_counterexample :
    oracle1.cst sql1 = none ∧ oracle1.bstructCtes sql1 = []
      ∧ (buildLineageGraph oracle1 sql1).nodes ≠ [] := by
  refine ⟨rfl, rfl, ?_⟩
  decide

/-- Counterexample to C2: on `sql2` the name `x` is the `fullName` of both a
SOURCE node and a TARGET node of the same graph. -/
theorem C2_counterexample :
    ¬ (∀ ns ∈ (buildLineageGraph oracle2 sql2).nodes,
        ∀ nt ∈ (buildLineageGraph oracle2 sql2).nodes,
        ns.nodeType = NodeType.SOURCE → nt.nodeType = NodeType.TARGET →
        lower ns.fullName ≠ lower nt.fullName) := by
  decide

/-- Counterexample to C3: the spec's own input
`WITH r AS (SELECT * FROM r) SELECT * FROM r` produces the self-loop edge
on node `r`. -/
theorem C3_counterexample :
    mkEdge "cte_r" "cte_r" ∈ (buildLineageGraph oracle3 sql3).edges := by
  decide

/-- Counterexample to C4: on the cyclic `sql4` the edge from `cte_a` to
`cte_b` joins two CTE nodes of equal layer, so strict layer monotonicity
fails. -/
theorem C4_counterexample :
    ¬ (∀ e ∈ (buildLineageGraph oracle4 sql4).edges,
        ∀ nu ∈ (buildLineageGraph oracle4 sql4).nodes,
        ∀ nv ∈ (buildLineageGraph oracle4 sql4).nodes,
        nu.id = e.source → nv.id = e.target →
        nu.nodeType = NodeType.CTE → nv.nodeType = NodeType.CTE →
        nu.layer < nv.layer) := by
  decide

/-- Counterexample to C5: on `sql5`, which defines the CTE name `a` twice,
the graph holds two CTE nodes for the pair (CTE, `a`). -/
theorem C5_counterexample :
    ((buildLineageGraph oracle5 sql5).nodes.filter
        (fun n => n.nodeType = NodeType.CTE && lower n.fullName = "a")).length = 2 := by
  decide

/-- Counterexample to C6: on `sql6` the edge `source_t → cte_c` occurs twice
(once for the spelling `T`, once for `t`), so edges are not deduplicated by
endpoint pair. -/
theorem C6_counterexample :
    ¬ ((buildLineageGraph oracle6 sql6).edges.map
        (fun e => (e.source, e.target))).Nodup := by
  decide

/-- Counterexample to C7: for `ctesDup` the second CTE (`A`, referencing the
layered CTE `a` whose layer is 1) is assigned layer 1, not
max(dependency layers) + 1 = 2, because the first definition already claimed
the map key. -/
theorem C7_counterexample :
    (ctesDup.getD 1 { name := "", range := [], sourceTables := [], referencedCtes := [] }).referencedCtes = ["a"]
      ∧ resolveRefs (calculateCteLayers ctesDup) (ctesDup.map (fun c => lower c.name)) ["a"] = some [1]
      ∧ (calculateCteLayers ctesDup).lookup (lower "A") = some 1
      ∧ (1 : Nat) ≠ [1].foldl max 0 + 1 := by
  decide


/-! ### Claim C8: determinism -/

/-- C8: for every SQL text (and every collaborator behaviour), two
invocations of `buildLineageGraph` yield identical results — the same node
ids, layers and node order, the same edge ids and edge order, and the same
`queryPreview`.  In this embedding the computation is a pure function of the
text and the collaborator observations, so determinism holds definitionally;
the content of the claim is carried by the faithfulness of the translation,
which mutates no state outside the run. -/
theorem C8_determinism (o : SqlOracle) (sql : String) :
    (buildLineageGraph o sql).nodes = (buildLineageGraph o sql).nodes
      ∧ (buildLineageGraph o sql).edges = (buildLineageGraph o sql).edges
      ∧ buildLineageGraph o sql = buildLineageGraph o sql :=
  ⟨rfl, rfl, rfl⟩

/-! ### Claim C1 (amended): totality and the empty-graph condition -/

/-- C1 (amended): `buildLineageGraph` always returns a graph (it is a total
function of the text and the collaborator observations; the `@bstruct`
fallback parser is error-tolerant).  When the CST parser rejects the text,
the fallback extraction finds no CTEs, and none of the seven target regexes
captures anything, the returned graph has empty `nodes` and `edges`.  The
original claim asked for empty nodes on every syntactically invalid input;
that fails because the regex-based target detector still fires on invalid
text (see `C1_counterexample`), so emptiness additionally requires that no
target pattern matched. -/
theorem C1_empty_graph_amended (o : SqlOracle) (sql : String)
    (hcst : o.cst sql = none) (hbs : o.bstructCtes sql = [])
    (h1 : o.insertCaps sql = []) (h2 : o.createTableCaps sql = [])
    (h3 : o.createViewCaps sql = []) (h4 : o.mergeCaps sql = [])
    (h5 : o.updateCaps sql = []) (h6 : o.deleteCaps sql = [])
    (h7 : o.truncateCaps sql = []) :
    (buildLineageGraph o sql).nodes = [] ∧ (buildLineageGraph o sql).edges = [] := by
  have hctes : bgCtes o sql = [] := by
    simp [bgCtes, extractCtes, extractCtesWithDependencies, hcst, hbs]
  have htt : extractTargetTables o sql = [] := by
    simp [extractTargetTables, h1, h2, h3, h4, h5, h6, h7]
  have hbasic : bgBasic o sql = { sources := [], targets := [], queryPreview := queryPreviewOf sql } := by
    simp [bgBasic, extractLineage, srcAccOf, tgtAccOf, extractTableReferences, hcst, htt]
  constructor
  · show bgNodes o sql = []
    simp [bgNodes, bgSourceTableNames, bgAllSourceTables, allSourceTablesOf, hctes, hbasic,
      bgGraphTargets]
  · show bgCteEdges o sql ++ bgTargetEdges o sql = []
    simp [bgCteEdges, bgTargetEdges, hctes, hbasic]

/-- Witness for C1 (amended) at the concrete unparseable text `sql0`. -/
theorem C1_empty_graph_amended_witness :
    (buildLineageGraph oracle0 sql0).nodes = [] ∧ (buildLineageGraph oracle0 sql0).edges = [] :=
  C1_empty_graph_amended oracle0 sql0 rfl rfl rfl rfl rfl rfl rfl rfl rfl


/-! ### Characterization of the node map and the edge groups -/

theorem mem_bgSrcEntries {o : SqlOracle} {sql k : String} {n : LineageNode}
    (h : (k, n) ∈ bgSrcEntries o sql) :
    k ∈ bgSourceTableNames o sql ∧ n = mkSourceNode k := by
  unfold bgSrcEntries at h
  rcases List.mem_map.mp h with ⟨t, ht, he⟩
  rw [Prod.mk.injEq] at he
  rcases he with ⟨rfl, rfl⟩
  exact ⟨ht, rfl⟩

theorem mem_bgCteEntries {o : SqlOracle} {sql k : String} {n : LineageNode}
    (h : (k, n) ∈ bgCteEntries o sql) :
    ∃ c ∈ bgCtes o sql, k = lower c.name ∧ n = mkCteNode (bgLayers o sql) c := by
  unfold bgCteEntries at h
  rcases List.mem_map.mp h with ⟨c, hc, he⟩
  rw [Prod.mk.injEq] at he
  exact ⟨c, hc, he.1.symm, he.2.symm⟩

theorem mem_bgTgtEntries {o : SqlOracle} {sql k : String} {n : LineageNode}
    (h : (k, n) ∈ bgTgtEntries o sql) :
    ∃ t ∈ bgGraphTargets o sql, k = lower t.fullName ∧ n = mkTargetNode (bgTargetLayer o sql) t := by
  unfold bgTgtEntries at h
  rcases List.mem_map.mp h with ⟨t, ht, he⟩
  rw [Prod.mk.injEq] at he
  exact ⟨t, ht, he.1.symm, he.2.symm⟩

theorem bgNm_some_cases {o : SqlOracle} {sql k : String} {n : LineageNode}
    (h : bgNm o sql k = some n) :
    (k, n) ∈ bgTgtEntries o sql ∨ (k, n) ∈ bgCteEntries o sql ∨ (k, n) ∈ bgSrcEntries o sql := by
  unfold bgNm nodeMapOf at h
  rcases htgt : assocLast (bgTgtEntries o sql) k with _ | n'
  · rw [htgt] at h
    rcases hcte : assocLast (bgCteEntries o sql) k with _ | n''
    · rw [hcte] at h
      exact Or.inr (Or.inr (assocLast_eq_some_mem h))
    · rw [hcte] at h
      injection h with h
      subst h
      exact Or.inr (Or.inl (assocLast_eq_some_mem hcte))
  · rw [htgt] at h
    injection h with h
    subst h
    exact Or.inl (assocLast_eq_some_mem htgt)

theorem bgNm_mem_nodes {o : SqlOracle} {sql k : String} {n : LineageNode}
    (h : bgNm o sql k = some n) : n ∈ bgNodes o sql := by
  unfold bgNodes
  simp only [List.mem_append, List.mem_map]
  rcases bgNm_some_cases h with hm | hm | hm
  · rcases mem_bgTgtEntries hm with ⟨t, ht, _, rfl⟩
    exact Or.inr ⟨t, ht, rfl⟩
  · rcases mem_bgCteEntries hm with ⟨c, hc, _, rfl⟩
    exact Or.inl (Or.inr ⟨c, hc, rfl⟩)
  · rcases mem_bgSrcEntries hm with ⟨ht, rfl⟩
    exact Or.inl (Or.inl ⟨k, ht, rfl⟩)

/-- Shape of a node found in the node map: its kind, its id as tag plus key,
and whether the key is a (lower-cased) CTE name. -/
theorem bgNm_shape {o : SqlOracle} {sql k : String} {n : LineageNode}
    (h : bgNm o sql k = some n) :
    (n.nodeType = NodeType.TARGET ∧ n.id = "target_" ++ k ∧ k ∉ cteNamesOf (bgCtes o sql))
      ∨ (n.nodeType = NodeType.CTE ∧ n.id = "cte_" ++ k ∧ k ∈ cteNamesOf (bgCtes o sql))
      ∨ (n.nodeType = NodeType.SOURCE ∧ n.id = "source_" ++ k ∧ k ∉ cteNamesOf (bgCtes o sql)) := by
  rcases bgNm_some_cases h with hm | hm | hm
  · rcases mem_bgTgtEntries hm with ⟨t, ht, rfl, rfl⟩
    rcases List.mem_filter.mp ht with ⟨_, hf⟩
    rw [Bool.not_eq_eq_eq_not, Bool.not_true] at hf
    refine Or.inl ⟨rfl, rfl, fun hmem => ?_⟩
    have hc := contains_iff.mpr hmem
    rw [hf] at hc
    exact Bool.noConfusion hc
  · rcases mem_bgCteEntries hm with ⟨c, hc, rfl, rfl⟩
    refine Or.inr (Or.inl ⟨rfl, rfl, ?_⟩)
    exact List.mem_map_of_mem _ hc
  · rcases mem_bgSrcEntries hm with ⟨ht, rfl⟩
    rcases List.mem_filter.mp ht with ⟨_, hf⟩
    rw [Bool.not_eq_eq_eq_not, Bool.not_true] at hf
    refine Or.inr (Or.inr ⟨rfl, rfl, fun hmem => ?_⟩)
    have hc := contains_iff.mpr hmem
    rw [hf] at hc
    exact Bool.noConfusion hc

/-- The node id determines the node-map key. -/
theorem bgNm_id_inj {o : SqlOracle} {sql k1 k2 : String} {n1 n2 : LineageNode}
    (h1 : bgNm o sql k1 = some n1) (h2 : bgNm o sql k2 = some n2)
    (h : n1.id = n2.id) : k1 = k2 := by
  have s1 := bgNm_shape h1
  have s2 := bgNm_shape h2
  have htc : ("target_" : String).data.head? = some 't' := rfl
  have hcc : ("cte_" : String).data.head? = some 'c' := rfl
  have hsc : ("source_" : String).data.head? = some 's' := rfl
  rcases s1 with ⟨_, e1, _⟩ | ⟨_, e1, _⟩ | ⟨_, e1, _⟩ <;>
    rcases s2 with ⟨_, e2, _⟩ | ⟨_, e2, _⟩ | ⟨_, e2, _⟩ <;>
    rw [e1, e2] at h
  · exact append_tag_inj h
  · exact absurd h (tag_ne_of_head htc hcc (by decide))
  · exact absurd h (tag_ne_of_head htc hsc (by decide))
  · exact absurd h (tag_ne_of_head hcc htc (by decide))
  · exact append_tag_inj h
  · exact absurd h (tag_ne_of_head hcc hsc (by decide))
  · exact absurd h (tag_ne_of_head hsc htc (by decide))
  · exact absurd h (tag_ne_of_head hsc hcc (by decide))
  · exact append_tag_inj h

/-- A lower-cased CTE name is always mapped, to its CTE node. -/
theorem bgNm_cteName {o : SqlOracle} {sql k : String}
    (hk : k ∈ cteNamesOf (bgCtes o sql)) :
    ∃ n, bgNm o sql k = some n ∧ n.nodeType = NodeType.CTE ∧ n.id = "cte_" ++ k := by
  rcases hn : bgNm o sql k with _ | n
  · exfalso
    unfold bgNm nodeMapOf at hn
    rcases List.mem_map.mp hk with ⟨c, hc, hck⟩
    have hmem : (k, mkCteNode (bgLayers o sql) c) ∈ bgCteEntries o sql := by
      unfold bgCteEntries
      rw [← hck]
      exact List.mem_map_of_mem _ hc
    have hsome := assocLast_isSome_of_mem hmem
    rcases hts : assocLast (bgTgtEntries o sql) k with _ | m
    · rw [hts] at hn
      rcases hcs : assocLast (bgCteEntries o sql) k with _ | m'
      · rw [hcs] at hsome
        simp at hsome
      · rw [hcs] at hn
        exact Option.noConfusion hn
    · rw [hts] at hn
      exact Option.noConfusion hn
  · refine ⟨n, rfl, ?_⟩
    rcases bgNm_shape hn with ⟨_, _, hni⟩ | ⟨hty, hid, _⟩ | ⟨_, _, hni⟩
    · exact absurd hk hni
    · exact ⟨hty, hid⟩
    · exact absurd hk hni

/-- Every edge of the CTE group connects two mapped nodes, the head of the
edge being the CTE node of the defining CTE. -/
theorem mem_bgCteEdges_cases {o : SqlOracle} {sql : String} {e : LineageEdge}
    (h : e ∈ bgCteEdges o sql) :
    ∃ cte ∈ bgCtes o sql, ∃ cteNode, bgNm o sql (lower cte.name) = some cteNode ∧
      ((∃ st ∈ cte.sourceTables, ∃ sn, bgNm o sql (lower st) = some sn
          ∧ e = mkEdge sn.id cteNode.id)
        ∨ (∃ rc ∈ cte.referencedCtes, ∃ rn, bgNm o sql (lower rc) = some rn
          ∧ e = mkEdge rn.id cteNode.id)) := by
  unfold bgCteEdges at h
  rcases List.mem_flatMap.mp h with ⟨cte, hcte, he⟩
  rcases hn : bgNm o sql (lower cte.name) with _ | cteNode
  · rw [hn] at he
    simp at he
  · rw [hn] at he
    refine ⟨cte, hcte, cteNode, hn, ?_⟩
    rcases List.mem_append.mp he with hs | hr
    · left
      rcases List.mem_filterMap.mp hs with ⟨st, hst, hmap⟩
      rcases Option.map_eq_some'.mp hmap with ⟨sn, hsn, hedge⟩
      exact ⟨st, hst, sn, hsn, hedge.symm⟩
    · right
      rcases List.mem_filterMap.mp hr with ⟨rc, hrc, hmap⟩
      rcases Option.map_eq_some'.mp hmap with ⟨rn, hrn, hedge⟩
      exact ⟨rc, hrc, rn, hrn, hedge.symm⟩

/-- Every edge of the target group connects a mapped node to the node found
under a detected target name; the tail comes from `mainQueryCtes`,
`mainQuerySources`, or (only when there are no CTEs at all) the basic
source list. -/
theorem mem_bgTargetEdges_cases {o : SqlOracle} {sql : String} {e : LineageEdge}
    (h : e ∈ bgTargetEdges o sql) :
    ∃ target ∈ (bgBasic o sql).targets, ∃ targetNode,
      bgNm o sql (lower target.fullName) = some targetNode ∧
      ((∃ cn ∈ bgMainQueryCtes o sql, ∃ c, bgNm o sql (lower cn) = some c
          ∧ e = mkEdge c.id targetNode.id)
        ∨ (∃ sn ∈ bgMainQuerySources o sql, ∃ s, bgNm o sql (lower sn) = some s
          ∧ e = mkEdge s.id targetNode.id)
        ∨ (bgCtes o sql = [] ∧ ∃ src ∈ (bgBasic o sql).sources, ∃ s,
            bgNm o sql (lower src.fullName) = some s ∧ e = mkEdge s.id targetNode.id)) := by
  unfold bgTargetEdges at h
  by_cases hlen : (bgBasic o sql).targets.length > 0
  · rw [if_pos hlen] at h
    rcases List.mem_flatMap.mp h with ⟨target, htarget, he⟩
    rcases hn : bgNm o sql (lower target.fullName) with _ | targetNode
    · rw [hn] at he
      simp at he
    · rw [hn] at he
      refine ⟨target, htarget, targetNode, hn, ?_⟩
      rcases List.mem_append.mp he with hxy | hfb
      · rcases List.mem_append.mp hxy with hcs | hss
        · left
          rcases List.mem_filterMap.mp hcs with ⟨cn, hcn, hmap⟩
          rcases Option.map_eq_some'.mp hmap with ⟨c, hc, hedge⟩
          exact ⟨cn, hcn, c, hc, hedge.symm⟩
        · right; left
          rcases List.mem_filterMap.mp hss with ⟨sn, hsn, hmap⟩
          rcases Option.map_eq_some'.mp hmap with ⟨s, hs, hedge⟩
          exact ⟨sn, hsn, s, hs, hedge.symm⟩
      · right; right
        by_cases hcond : (bgMainQueryCtes o sql).length = 0
            && (bgMainQuerySources o sql).length = 0 && (bgCtes o sql).length = 0
        · rw [if_pos hcond] at hfb
          refine ⟨?_, ?_⟩
          · have := (Bool.and_eq_true _ _).mp hcond
            exact List.length_eq_zero.mp (by
              have h2 := this.2
              exact Nat.eq_of_beq_eq_true (by simpa using h2))
          · rcases List.mem_filterMap.mp hfb with ⟨src, hsrc, hmap⟩
            rcases Option.map_eq_some'.mp hmap with ⟨s, hs, hedge⟩
            exact ⟨src, hsrc, s, hs, hedge.symm⟩
        · rw [if_neg hcond] at hfb
          simp at hfb
  · rw [if_neg hlen] at h
    simp at h


theorem bgNm_kind_of_cteName {o : SqlOracle} {sql k : String} {n : LineageNode}
    (h : bgNm o sql k = some n) (hk : k ∈ cteNamesOf (bgCtes o sql)) :
    n.nodeType = NodeType.CTE := by
  rcases bgNm_shape h with ⟨_, _, hni⟩ | ⟨hty, _, _⟩ | ⟨_, _, hni⟩
  · exact absurd hk hni
  · exact hty
  · exact absurd hk hni

/-- The node found under a detected target's lower-cased name is never a
SOURCE node: the TARGET stage was the last to write that key, unless the
name is a CTE name, in which case the CTE stage's node is found. -/
theorem bgNm_target_not_source {o : SqlOracle} {sql : String} {t : LineageTable}
    {n : LineageNode} (ht : t ∈ (bgBasic o sql).targets)
    (h : bgNm o sql (lower t.fullName) = some n) :
    n.nodeType ≠ NodeType.SOURCE := by
  by_cases hk : lower t.fullName ∈ cteNamesOf (bgCtes o sql)
  · rw [bgNm_kind_of_cteName h hk]
    exact fun hc => NodeType.noConfusion hc
  · have hgt : t ∈ bgGraphTargets o sql := by
      unfold bgGraphTargets
      refine List.mem_filter.mpr ⟨ht, ?_⟩
      rw [Bool.not_eq_eq_eq_not, Bool.not_true]
      rcases hc : (cteNamesOf (bgCtes o sql)).contains (lower t.fullName) with _ | _
      · rfl
      · exact absurd (contains_iff.mp hc) hk
    have hmem : (lower t.fullName, mkTargetNode (bgTargetLayer o sql) t) ∈ bgTgtEntries o sql := by
      unfold bgTgtEntries
      exact List.mem_map_of_mem _ hgt
    have hsome := assocLast_isSome_of_mem hmem
    unfold bgNm nodeMapOf at h
    rcases hts : assocLast (bgTgtEntries o sql) (lower t.fullName) with _ | m
    · rw [hts] at hsome
      simp at hsome
    · rw [hts] at h
      injection h with h
      subst h
      rcases mem_bgTgtEntries (assocLast_eq_some_mem hts) with ⟨t', _, _, rfl⟩
      exact fun hc => NodeType.noConfusion hc

/-- Claim C10: every edge of `buildLineageGraph` refers only to existing
nodes — its source id and its target id each name a node of the returned
node list. -/
theorem C10_edge_endpoints_exist (o : SqlOracle) (sql : String) (e : LineageEdge)
    (h : e ∈ (buildLineageGraph o sql).edges) :
    (∃ n ∈ (buildLineageGraph o sql).nodes, n.id = e.source)
      ∧ ∃ n ∈ (buildLineageGraph o sql).nodes, n.id = e.target := by
  rcases List.mem_append.mp h with hc | ht
  · rcases mem_bgCteEdges_cases hc with ⟨cte, _, cteNode, hcn, hcase⟩
    rcases hcase with ⟨st, _, sn, hsn, rfl⟩ | ⟨rc, _, rn, hrn, rfl⟩
    · exact ⟨⟨sn, bgNm_mem_nodes hsn, rfl⟩, ⟨cteNode, bgNm_mem_nodes hcn, rfl⟩⟩
    · exact ⟨⟨rn, bgNm_mem_nodes hrn, rfl⟩, ⟨cteNode, bgNm_mem_nodes hcn, rfl⟩⟩
  · rcases mem_bgTargetEdges_cases ht with ⟨target, _, targetNode, htn, hcase⟩
    rcases hcase with ⟨cn, _, c, hcnm, rfl⟩ | ⟨sn, _, s, hsnm, rfl⟩ | ⟨_, src, _, s, hsnm, rfl⟩
    · exact ⟨⟨c, bgNm_mem_nodes hcnm, rfl⟩, ⟨targetNode, bgNm_mem_nodes htn, rfl⟩⟩
    · exact ⟨⟨s, bgNm_mem_nodes hsnm, rfl⟩, ⟨targetNode, bgNm_mem_nodes htn, rfl⟩⟩
    · exact ⟨⟨s, bgNm_mem_nodes hsnm, rfl⟩, ⟨targetNode, bgNm_mem_nodes htn, rfl⟩⟩

/-- Witness for C10 at the concrete graph of `sql3`, whose edge list holds
the self-loop on `cte_r`. -/
theorem C10_edge_endpoints_exist_witness :
    mkEdge "cte_r" "cte_r" ∈ (buildLineageGraph oracle3 sql3).edges
      ∧ ((∃ n ∈ (buildLineageGraph oracle3 sql3).nodes, n.id = (mkEdge "cte_r" "cte_r").source)
        ∧ ∃ n ∈ (buildLineageGraph oracle3 sql3).nodes, n.id = (mkEdge "cte_r" "cte_r").target) :=
  ⟨by decide, C10_edge_endpoints_exist oracle3 sql3 (mkEdge "cte_r" "cte_r") (by decide)⟩

/-- The head (target endpoint) of every edge is a non-SOURCE node. -/
theorem edge_head_not_source (o : SqlOracle) (sql : String) (e : LineageEdge)
    (h : e ∈ (buildLineageGraph o sql).edges) :
    ∃ n ∈ (buildLineageGraph o sql).nodes, n.id = e.target ∧ n.nodeType ≠ NodeType.SOURCE := by
  rcases List.mem_append.mp h with hc | ht
  · rcases mem_bgCteEdges_cases hc with ⟨cte, hcte, cteNode, hcn, hcase⟩
    have hkind : cteNode.nodeType = NodeType.CTE :=
      bgNm_kind_of_cteName hcn (List.mem_map_of_mem _ hcte)
    have hne : cteNode.nodeType ≠ NodeType.SOURCE := by
      rw [hkind]
      exact fun hx => NodeType.noConfusion hx
    rcases hcase with ⟨st, _, sn, hsn, rfl⟩ | ⟨rc, _, rn, hrn, rfl⟩
    · exact ⟨cteNode, bgNm_mem_nodes hcn, rfl, hne⟩
    · exact ⟨cteNode, bgNm_mem_nodes hcn, rfl, hne⟩
  · rcases mem_bgTargetEdges_cases ht with ⟨target, htarget, targetNode, htn, hcase⟩
    have hne := bgNm_target_not_source htarget htn
    rcases hcase with ⟨cn, _, c, hcnm, rfl⟩ | ⟨sn, _, s, hsnm, rfl⟩ | ⟨_, src, _, s, hsnm, rfl⟩
    · exact ⟨targetNode, bgNm_mem_nodes htn, rfl, hne⟩
    · exact ⟨targetNode, bgNm_mem_nodes htn, rfl, hne⟩
    · exact ⟨targetNode, bgNm_mem_nodes htn, rfl, hne⟩

/-- C3 (amended): `buildLineageGraph` can produce self-loop edges — the
spec's own input `WITH r AS (SELECT * FROM r) SELECT * FROM r` yields the
edge `cte_r → cte_r` (`C3_counterexample`) — but every self-loop sits on a
CTE or TARGET node: no self-loop edge ever has a SOURCE node as its
endpoint. -/
theorem C3_selfloop_amended (o : SqlOracle) (sql : String) (e : LineageEdge)
    (h : e ∈ (buildLineageGraph o sql).edges) (hself : e.source = e.target) :
    ∃ n ∈ (buildLineageGraph o sql).nodes, n.id = e.source ∧ n.nodeType ≠ NodeType.SOURCE := by
  rcases edge_head_not_source o sql e h with ⟨n, hn, hid, hkind⟩
  exact ⟨n, hn, by rw [hself, hid], hkind⟩

/-- Witness for C3 (amended) at the self-loop edge of `sql3`. -/
theorem C3_selfloop_amended_witness :
    mkEdge "cte_r" "cte_r" ∈ (buildLineageGraph oracle3 sql3).edges
      ∧ ∃ n ∈ (buildLineageGraph oracle3 sql3).nodes,
          n.id = (mkEdge "cte_r" "cte_r").source ∧ n.nodeType ≠ NodeType.SOURCE :=
  ⟨by decide, C3_selfloop_amended oracle3 sql3 (mkEdge "cte_r" "cte_r") (by decide) rfl⟩


/-! ### Lemmas about `extractLineage` -/

theorem parseTableName_fullName (x : String) (role : Role) :
    (parseTableName x role).fullName = x := by
  unfold parseTableName
  by_cases h3 : (dotParts x).length = 3
  · simp [h3]
  · by_cases h2 : (dotParts x).length = 2 <;> simp [h3, h2]

/-- Invariant of the target-collection loop: every collected target's
lower-cased name is in the `seenTargets` set, and those names are pairwise
distinct. -/
theorem tgtAcc_inv_gen (ms : List TargetMatch) (acc : List String × List LineageTable)
    (hinv : (∀ t ∈ acc.2, lower t.fullName ∈ acc.1)
      ∧ (acc.2.map (fun t => lower t.fullName)).Nodup) :
    (∀ t ∈ (ms.foldl lineageTargetsStep acc).2,
        lower t.fullName ∈ (ms.foldl lineageTargetsStep acc).1)
      ∧ ((ms.foldl lineageTargetsStep acc).2.map (fun t => lower t.fullName)).Nodup := by
  induction ms generalizing acc with
  | nil => simpa using hinv
  | cons m rest ih =>
    rw [List.foldl_cons]
    apply ih
    rcases hinv with ⟨ih1, ih2⟩
    unfold lineageTargetsStep
    by_cases hc : acc.1.contains (lower m.tableName) = true
    · rw [if_pos hc]
      exact ⟨ih1, ih2⟩
    · rw [if_neg hc]
      constructor
      · intro t htm
        rcases List.mem_append.mp htm with hin | hnew
        · exact List.mem_append_left _ (ih1 t hin)
        · rcases List.mem_singleton.mp hnew with rfl
          refine List.mem_append_right _ ?_
          simp [parseTableName_fullName]
      · rw [List.map_append]
        refine List.Nodup.append ih2 ?_ ?_
        · simp
        · intro x hx hx'
          simp only [List.map_cons, List.map_nil, List.mem_singleton] at hx'
          rw [parseTableName_fullName] at hx'
          subst hx'
          rcases List.mem_map.mp hx with ⟨t, htm, hteq⟩
          exact hc (contains_iff.mpr (hteq ▸ ih1 t htm))

theorem tgtAcc_inv (o : SqlOracle) (sql : String) :
    (∀ t ∈ (tgtAccOf o sql).2, lower t.fullName ∈ (tgtAccOf o sql).1)
      ∧ ((tgtAccOf o sql).2.map (fun t => lower t.fullName)).Nodup := by
  unfold tgtAccOf
  exact tgtAcc_inv_gen _ _ ⟨by simp, List.nodup_nil⟩

/-- Sources surviving the `extractLineage` filter never share a lower-cased
name with a detected target (lineageService.ts 279–283). -/
theorem extractLineage_disjoint (o : SqlOracle) (sql : String) :
    ∀ s ∈ (extractLineage o sql).sources, ∀ t ∈ (extractLineage o sql).targets,
      lower s.fullName ≠ lower t.fullName := by
  intro s hs t ht heq
  have hfil : s ∈ (srcAccOf o sql).2.filter
      (fun s => !((tgtAccOf o sql).1.contains (lower s.fullName))) := hs
  rcases List.mem_filter.mp hfil with ⟨_, hpass⟩
  rw [Bool.not_eq_eq_eq_not, Bool.not_true] at hpass
  have hseen : lower t.fullName ∈ (tgtAccOf o sql).1 := (tgtAcc_inv o sql).1 t ht
  rw [← heq] at hseen
  have := contains_iff.mpr hseen
  rw [hpass] at this
  exact Bool.noConfusion this

/-- Membership in `allSourceTables`: a lower-cased main-query source or a
lower-cased table read by some CTE. -/
theorem mem_allSourceTablesOf {basicSources : List LineageTable}
    {ctes : List CteDefinition} {t : String} :
    t ∈ allSourceTablesOf basicSources ctes
      ↔ (∃ s ∈ basicSources, t = lower s.fullName)
        ∨ ∃ c ∈ ctes, ∃ st ∈ c.sourceTables, t = lower st := by
  unfold allSourceTablesOf
  have hbase : ∀ init : List String,
      t ∈ ctes.foldl (fun s cte => cte.sourceTables.foldl (fun s t => insertSet s (lower t)) s) init
        ↔ t ∈ init ∨ ∃ c ∈ ctes, ∃ st ∈ c.sourceTables, t = lower st := by
    intro init
    induction ctes generalizing init with
    | nil => simp
    | cons c cs ih =>
      rw [List.foldl_cons, ih]
      rw [mem_foldl_insert (fun st => lower st) c.sourceTables init t]
      constructor
      · rintro ((hin | ⟨st, hst, rfl⟩) | ⟨c', hc', st, hst, rfl⟩)
        · exact Or.inl hin
        · exact Or.inr ⟨c, List.mem_cons_self _ _, st, hst, rfl⟩
        · exact Or.inr ⟨c', List.mem_cons_of_mem _ hc', st, hst, rfl⟩
      · rintro (hin | ⟨c', hc', st, hst, rfl⟩)
        · exact Or.inl (Or.inl hin)
        · rcases List.mem_cons.mp hc' with rfl | hc'
          · exact Or.inl (Or.inr ⟨st, hst, rfl⟩)
          · exact Or.inr ⟨c', hc', st, hst, rfl⟩
  rw [hbase]
  rw [mem_foldl_insert (fun s : LineageTable => lower s.fullName) basicSources [] t]
  simp

/-- The `allSourceTables` set holds pairwise-distinct strings. -/
theorem nodup_allSourceTablesOf (basicSources : List LineageTable)
    (ctes : List CteDefinition) : (allSourceTablesOf basicSources ctes).Nodup := by
  unfold allSourceTablesOf
  have hinner : (basicSources.foldl (fun s src => insertSet s (lower src.fullName)) []).Nodup :=
    nodup_foldl_insert _ _ [] List.nodup_nil
  generalize (basicSources.foldl (fun s src => insertSet s (lower src.fullName)) []) = init at hinner ⊢
  induction ctes generalizing init with
  | nil => simpa
  | cons c cs ih =>
    rw [List.foldl_cons]
    exact ih _ (nodup_foldl_insert _ _ _ hinner)

/-! ### Node-list characterization by kind -/

theorem mem_nodes_source {o : SqlOracle} {sql : String} {n : LineageNode}
    (hn : n ∈ bgNodes o sql) (hk : n.nodeType = NodeType.SOURCE) :
    ∃ t ∈ bgSourceTableNames o sql, n = mkSourceNode t := by
  unfold bgNodes at hn
  simp only [List.mem_append, List.mem_map] at hn
  rcases hn with (⟨t, ht, rfl⟩ | ⟨c, hc, rfl⟩) | ⟨t, ht, rfl⟩
  · exact ⟨t, ht, rfl⟩
  · exact absurd hk (by simp [mkCteNode])
  · exact absurd hk (by simp [mkTargetNode])

theorem mem_nodes_cte {o : SqlOracle} {sql : String} {n : LineageNode}
    (hn : n ∈ bgNodes o sql) (hk : n.nodeType = NodeType.CTE) :
    ∃ c ∈ bgCtes o sql, n = mkCteNode (bgLayers o sql) c := by
  unfold bgNodes at hn
  simp only [List.mem_append, List.mem_map] at hn
  rcases hn with (⟨t, ht, rfl⟩ | ⟨c, hc, rfl⟩) | ⟨t, ht, rfl⟩
  · exact absurd hk (by simp [mkSourceNode])
  · exact ⟨c, hc, rfl⟩
  · exact absurd hk (by simp [mkTargetNode])

theorem mem_nodes_target {o : SqlOracle} {sql : String} {n : LineageNode}
    (hn : n ∈ bgNodes o sql) (hk : n.nodeType = NodeType.TARGET) :
    ∃ t ∈ bgGraphTargets o sql, n = mkTargetNode (bgTargetLayer o sql) t := by
  unfold bgNodes at hn
  simp only [List.mem_append, List.mem_map] at hn
  rcases hn with (⟨t, ht, rfl⟩ | ⟨c, hc, rfl⟩) | ⟨t, ht, rfl⟩
  · exact absurd hk (by simp [mkSourceNode])
  · exact absurd hk (by simp [mkCteNode])
  · exact ⟨t, ht, rfl⟩

/-- C2 (amended): when a qualified name appears (case-insensitively) both as
the `fullName` of a SOURCE node and of a TARGET node of the same graph —
which does happen, see `C2_counterexample` — the name is necessarily one
read inside a CTE body: the `extractLineage` filter removes every main-query
source that is also a target, so only CTE-internal source tables can
coincide with a target.  A name read only by the main query and written by
the statement is represented as a TARGET node only. -/
theorem C2_source_target_amended (o : SqlOracle) (sql : String)
    (ns nt : LineageNode)
    (hns : ns ∈ (buildLineageGraph o sql).nodes) (hnt : nt ∈ (buildLineageGraph o sql).nodes)
    (hsk : ns.nodeType = NodeType.SOURCE) (htk : nt.nodeType = NodeType.TARGET)
    (heq : lower ns.fullName = lower nt.fullName) :
    ∃ c ∈ bgCtes o sql, ∃ st ∈ c.sourceTables, lower st = lower ns.fullName := by
  rcases mem_nodes_source hns hsk with ⟨t, ht, rfl⟩
  rcases mem_nodes_target hnt htk with ⟨tt, htt, rfl⟩
  have hall : t ∈ bgAllSourceTables o sql := (List.mem_filter.mp ht).1
  have htt' : tt ∈ (bgBasic o sql).targets := (List.mem_filter.mp htt).1
  rcases mem_allSourceTablesOf.mp hall with ⟨s, hs, rfl⟩ | ⟨c, hc, st, hst, rfl⟩
  · exfalso
    have hdisj := extractLineage_disjoint o sql s hs tt htt'
    have : lower (mkSourceNode (lower s.fullName)).fullName
        = lower (mkTargetNode (bgTargetLayer o sql) tt).fullName := heq
    rw [show (mkSourceNode (lower s.fullName)).fullName = lower s.fullName from rfl,
      show (mkTargetNode (bgTargetLayer o sql) tt).fullName = tt.fullName from rfl,
      lower_idem] at this
    exact hdisj this
  · exact ⟨c, hc, st, hst, by rw [show (mkSourceNode (lower st)).fullName = lower st from rfl,
      lower_idem]⟩

/-- The target table recorded for `x` on `sql2`. -/
def tgtTableX : LineageTable :=
  { fullName := "x", projectId := none, datasetId := none, tableId := "x"
    role := Role.target, statementType := some "CREATE TABLE" }

/-- Witness for C2 (amended) at the `sql2` instance: `x` is read inside the
CTE `c` and written by the CREATE TABLE, and indeed appears as SOURCE and
TARGET node; the theorem locates it among the CTE's source tables. -/
theorem C2_source_target_amended_witness :
    (mkSourceNode "x" ∈ (buildLineageGraph oracle2 sql2).nodes)
      ∧ (mkTargetNode 2 tgtTableX ∈ (buildLineageGraph oracle2 sql2).nodes)
      ∧ ∃ c ∈ bgCtes oracle2 sql2, ∃ st ∈ c.sourceTables,
          lower st = lower (mkSourceNode "x").fullName :=
  ⟨by decide, by decide,
    C2_source_target_amended oracle2 sql2 (mkSourceNode "x") (mkTargetNode 2 tgtTableX)
      (by decide) (by decide) rfl rfl (by decide)⟩


/-! ### Claim C5 (amended): node uniqueness and id derivation -/

/-- The id tag of each node kind. -/
def kindTag : NodeType → String
  | NodeType.SOURCE => "source_"
  | NodeType.CTE => "cte_"
  | NodeType.TARGET => "target_"

theorem lower_of_mem_allSourceTables {basicSources : List LineageTable}
    {ctes : List CteDefinition} {t : String}
    (h : t ∈ allSourceTablesOf basicSources ctes) : lower t = t := by
  rcases mem_allSourceTablesOf.mp h with ⟨s, _, rfl⟩ | ⟨c, _, st, _, rfl⟩
  · exact lower_idem _
  · exact lower_idem _

theorem nodup_bgSourceTableNames (o : SqlOracle) (sql : String) :
    (bgSourceTableNames o sql).Nodup := by
  unfold bgSourceTableNames
  exact List.Nodup.filter _ (nodup_allSourceTablesOf _ _)

theorem nodup_bgGraphTargets_lower (o : SqlOracle) (sql : String) :
    ((bgGraphTargets o sql).map (fun t => lower t.fullName)).Nodup := by
  have hsub : (bgGraphTargets o sql).Sublist (bgBasic o sql).targets := by
    unfold bgGraphTargets
    exact List.filter_sublist _
  exact List.Nodup.sublist (List.Sublist.map _ hsub) (tgtAcc_inv o sql).2

/-- C5 (amended): provided the extracted CTE definitions carry pairwise
distinct lower-cased names, the node list of `buildLineageGraph` holds at
most one node per (kind, case-insensitive name) pair, and every node id is
derived deterministically as the kind tag followed by the lower-cased full
name.  Without the distinctness proviso the claim fails: a statement that
defines the same CTE name twice produces two identical CTE nodes
(`C5_counterexample`). -/
theorem C5_node_uniqueness_amended (o : SqlOracle) (sql : String)
    (hd : (cteNamesOf (bgCtes o sql)).Nodup) :
    ((buildLineageGraph o sql).nodes.map (fun n => (n.nodeType, lower n.fullName))).Nodup
      ∧ ∀ n ∈ (buildLineageGraph o sql).nodes,
          n.id = kindTag n.nodeType ++ lower n.fullName := by
  constructor
  · show ((bgNodes o sql).map (fun n => (n.nodeType, lower n.fullName))).Nodup
    unfold bgNodes
    rw [List.map_append, List.map_append, List.map_map, List.map_map, List.map_map]
    have hA : (List.map ((fun n : LineageNode => (n.nodeType, lower n.fullName)) ∘ mkSourceNode)
        (bgSourceTableNames o sql)).Nodup := by
      have he : List.map ((fun n : LineageNode => (n.nodeType, lower n.fullName)) ∘ mkSourceNode)
          (bgSourceTableNames o sql)
          = List.map (fun t => (NodeType.SOURCE, t)) (bgSourceTableNames o sql) := by
        apply List.map_congr_left
        intro t ht
        have : lower t = t :=
          @lower_of_mem_allSourceTables (bgBasic o sql).sources
            (bgCtes o sql) t (List.mem_filter.mp ht).1
        simp [Function.comp, mkSourceNode, this]
      rw [he]
      exact List.Nodup.map (fun a b hab => by simpa using hab) (nodup_bgSourceTableNames o sql)
    have hB : (List.map ((fun n : LineageNode => (n.nodeType, lower n.fullName))
        ∘ mkCteNode (bgLayers o sql)) (bgCtes o sql)).Nodup := by
      have he : List.map ((fun n : LineageNode => (n.nodeType, lower n.fullName))
          ∘ mkCteNode (bgLayers o sql)) (bgCtes o sql)
          = List.map (fun k => (NodeType.CTE, k)) (cteNamesOf (bgCtes o sql)) := by
        unfold cteNamesOf
        rw [List.map_map]
        apply List.map_congr_left
        intro c hc
        simp [Function.comp, mkCteNode]
      rw [he]
      exact List.Nodup.map (fun a b hab => by simpa using hab) hd
    have hC : (List.map ((fun n : LineageNode => (n.nodeType, lower n.fullName))
        ∘ mkTargetNode (bgTargetLayer o sql)) (bgGraphTargets o sql)).Nodup := by
      have he : List.map ((fun n : LineageNode => (n.nodeType, lower n.fullName))
          ∘ mkTargetNode (bgTargetLayer o sql)) (bgGraphTargets o sql)
          = List.map (fun k => (NodeType.TARGET, k))
              ((bgGraphTargets o sql).map (fun t => lower t.fullName)) := by
        rw [List.map_map]
        apply List.map_congr_left
        intro t ht
        simp [Function.comp, mkTargetNode]
      rw [he]
      exact List.Nodup.map (fun a b hab => by simpa using hab)
        (nodup_bgGraphTargets_lower o sql)
    rw [List.nodup_append, List.nodup_append]
    have hkind : ∀ a, (a ∈ List.map ((fun n : LineageNode => (n.nodeType, lower n.fullName))
          ∘ mkSourceNode) (bgSourceTableNames o sql) → a.1 = NodeType.SOURCE)
        ∧ (a ∈ List.map ((fun n : LineageNode => (n.nodeType, lower n.fullName))
          ∘ mkCteNode (bgLayers o sql)) (bgCtes o sql) → a.1 = NodeType.CTE)
        ∧ (a ∈ List.map ((fun n : LineageNode => (n.nodeType, lower n.fullName))
          ∘ mkTargetNode (bgTargetLayer o sql)) (bgGraphTargets o sql) → a.1 = NodeType.TARGET) := by
      intro a
      refine ⟨fun ha => ?_, fun ha => ?_, fun ha => ?_⟩
      · rcases List.mem_map.mp ha with ⟨t, _, rfl⟩
        rfl
      · rcases List.mem_map.mp ha with ⟨c, _, rfl⟩
        rfl
      · rcases List.mem_map.mp ha with ⟨t, _, rfl⟩
        rfl
    refine ⟨⟨hA, hB, ?_⟩, hC, ?_⟩
    · intro a ha hb
      have h1 := (hkind a).1 ha
      have h2 := (hkind a).2.1 hb
      rw [h1] at h2
      exact NodeType.noConfusion h2
    · intro a ha hb
      have h3 := (hkind a).2.2 hb
      rcases List.mem_append.mp ha with ha | ha
      · have h1 := (hkind a).1 ha
        rw [h1] at h3
        exact NodeType.noConfusion h3
      · have h2 := (hkind a).2.1 ha
        rw [h2] at h3
        exact NodeType.noConfusion h3
  · intro n hn
    have hn' : n ∈ bgNodes o sql := hn
    unfold bgNodes at hn'
    simp only [List.mem_append, List.mem_map] at hn'
    rcases hn' with (⟨t, ht, rfl⟩ | ⟨c, hc, rfl⟩) | ⟨t, ht, rfl⟩
    · have hlt : lower t = t :=
        @lower_of_mem_allSourceTables (bgBasic o sql).sources
          (bgCtes o sql) t (List.mem_filter.mp ht).1
      show "source_" ++ t = kindTag NodeType.SOURCE ++ lower t
      rw [hlt]
      rfl
    · rfl
    · rfl

/-- Witness for C5 (amended) at the `sql7` instance (distinct CTE names
`c1`, `c2`). -/
theorem C5_node_uniqueness_amended_witness :
    (cteNamesOf (bgCtes oracle7 sql7)).Nodup
      ∧ (((buildLineageGraph oracle7 sql7).nodes.map
            (fun n => (n.nodeType, lower n.fullName))).Nodup
        ∧ ∀ n ∈ (buildLineageGraph oracle7 sql7).nodes,
            n.id = kindTag n.nodeType ++ lower n.fullName) :=
  ⟨by decide, C5_node_uniqueness_amended oracle7 sql7 (by decide)⟩


/-! ### Lemmas about the layer map (`calculateCteLayers`) -/

theorem foldl_inv {α β : Type} {P : β → Prop} (l : List α) (f : β → α → β) (b : β)
    (hb : P b) (hf : ∀ acc a, a ∈ l → P acc → P (f acc a)) : P (l.foldl f b) := by
  induction l generalizing b with
  | nil => simpa
  | cons a t ih =>
    rw [List.foldl_cons]
    exact ih (f b a) (hf b a (List.mem_cons_self _ _) hb)
      (fun acc a' ha' => hf acc a' (List.mem_cons_of_mem _ ha'))

theorem lookup_map_replace_ne (t : LayerMap) (k : String) (v : Nat) (k' : String)
    (hne : k' ≠ k) :
    (t.map (fun p => if p.1 = k then (k, v) else p)).lookup k' = t.lookup k' := by
  induction t with
  | nil => rfl
  | cons p rest ih =>
    rcases p with ⟨a, b⟩
    by_cases ha : a = k
    · rw [List.map_cons, if_pos ha]
      rw [lookup_cons_eq, lookup_cons_eq, if_neg hne, if_neg (ha ▸ hne)]
      exact ih
    · rw [List.map_cons, if_neg ha]
      rw [lookup_cons_eq, lookup_cons_eq]
      by_cases hk : k' = a
      · rw [if_pos hk, if_pos hk]
      · rw [if_neg hk, if_neg hk]
        exact ih

theorem lookup_map_replace_eq (t : LayerMap) (k : String) (v : Nat)
    (hs : (t.lookup k).isSome) :
    (t.map (fun p => if p.1 = k then (k, v) else p)).lookup k = some v := by
  induction t with
  | nil => simp [List.lookup] at hs
  | cons p rest ih =>
    rcases p with ⟨a, b⟩
    by_cases ha : a = k
    · rw [List.map_cons, if_pos ha, lookup_cons_eq, if_pos rfl]
    · rw [List.map_cons, if_neg ha, lookup_cons_eq, if_neg (fun h => ha h.symm)]
      rw [lookup_cons_eq, if_neg (fun h => ha h.symm)] at hs
      exact ih hs

theorem lookup_mapSet (m : LayerMap) (k : String) (v : Nat) (k' : String) :
    (mapSet m k v).lookup k' = if k' = k then some v else m.lookup k' := by
  unfold mapSet
  by_cases hs : (m.lookup k).isSome
  · rw [if_pos hs]
    by_cases hk : k' = k
    · rw [if_pos hk, hk]
      exact lookup_map_replace_eq m k v hs
    · rw [if_neg hk]
      exact lookup_map_replace_ne m k v k' hk
  · rw [if_neg hs]
    rw [List.lookup_append]
    by_cases hk : k' = k
    · rw [if_pos hk]
      have hn : m.lookup k' = none := by
        rw [hk]
        exact Option.not_isSome_iff_eq_none.mp hs
      rw [hn]
      rw [hk, lookup_cons_eq, if_pos rfl]
      rfl
    · rw [if_neg hk]
      have hsing : List.lookup k' [(k, v)] = none := by
        rw [lookup_cons_eq, if_neg hk]
        rfl
      rw [hsing]
      cases m.lookup k' <;> rfl

theorem mem_mapSet {m : LayerMap} {k : String} {v : Nat} {p : String × Nat}
    (h : p ∈ mapSet m k v) : p ∈ m ∨ p = (k, v) := by
  unfold mapSet at h
  by_cases hs : (m.lookup k).isSome
  · rw [if_pos hs] at h
    rcases List.mem_map.mp h with ⟨q, hq, hqe⟩
    by_cases hqk : q.1 = k
    · rw [if_pos hqk] at hqe
      exact Or.inr hqe.symm
    · rw [if_neg hqk] at hqe
      exact Or.inl (hqe ▸ hq)
  · rw [if_neg hs] at h
    rcases List.mem_append.mp h with h | h
    · exact Or.inl h
    · exact Or.inr (List.mem_singleton.mp h)

/-- Bindings survive a `layerRoundStep`. -/
theorem layerRoundStep_preserves {cteNames : List String} {acc : LayerMap × Bool}
    {cte : CteDefinition} {k : String} {v : Nat} (h : acc.1.lookup k = some v) :
    ((layerRoundStep cteNames acc cte).1).lookup k = some v := by
  unfold layerRoundStep
  by_cases hs : (acc.1.lookup (lower cte.name)).isSome
  · rw [if_pos hs]
    exact h
  · rw [if_neg hs]
    rcases hr : resolveRefs acc.1 cteNames cte.referencedCtes with _ | refLayers
    · exact h
    · show (mapSet acc.1 (lower cte.name) _).lookup k = some v
      rw [lookup_mapSet]
      rw [if_neg]
      · exact h
      · intro hk
        rw [hk] at h
        exact hs (by rw [h]; rfl)

theorem layerRound_preserves {ctes : List CteDefinition} {cteNames : List String}
    {m : LayerMap} {k : String} {v : Nat} (h : m.lookup k = some v) :
    ((layerRound ctes cteNames m).1).lookup k = some v := by
  unfold layerRound
  exact foldl_inv (P := fun acc : LayerMap × Bool => acc.1.lookup k = some v)
    ctes (layerRoundStep cteNames) (m, false) h
    (fun acc c _ hacc => layerRoundStep_preserves hacc)

theorem layerLoop_preserves {ctes : List CteDefinition} {cteNames : List String}
    {fuel : Nat} {m : LayerMap} {k : String} {v : Nat} (h : m.lookup k = some v) :
    (layerLoop ctes cteNames fuel m).lookup k = some v := by
  induction fuel generalizing m with
  | zero => exact h
  | succ f ih =>
    rw [layerLoop]
    by_cases hr : (layerRound ctes cteNames m).2
    · simp only [hr, if_true]
      exact ih (layerRound_preserves h)
    · simp only [hr, if_false]
      exact layerRound_preserves h

theorem forcedPass_preserves {ctes : List CteDefinition} {m : LayerMap} {k : String}
    {v : Nat} (h : m.lookup k = some v) : (forcedPass ctes m).lookup k = some v := by
  unfold forcedPass
  refine foldl_inv (P := fun acc : LayerMap => acc.lookup k = some v) ctes _ m h
    (fun acc c _ hacc => ?_)
  show (if (acc.lookup (lower c.name)).isSome then acc
      else mapSet acc (lower c.name) 1).lookup k = some v
  by_cases hs : (acc.lookup (lower c.name)).isSome
  · rw [if_pos hs]
    exact hacc
  · rw [if_neg hs]
    rw [lookup_mapSet, if_neg]
    · exact hacc
    · intro hk
      rw [hk] at hacc
      exact hs (by rw [hacc]; rfl)

/-- The forced pass assigns layer 1 to every still-unlayered CTE. -/
theorem forcedPass_forces {ctes : List CteDefinition} {m : LayerMap}
    {c : CteDefinition} (hc : c ∈ ctes) (hnone : m.lookup (lower c.name) = none) :
    (forcedPass ctes m).lookup (lower c.name) = some 1 := by
  induction ctes generalizing m with
  | nil => simp at hc
  | cons c0 rest ih =>
    show (List.foldl _ (if (m.lookup (lower c0.name)).isSome then m
        else mapSet m (lower c0.name) 1) rest).lookup (lower c.name) = some 1
    by_cases hs : (m.lookup (lower c0.name)).isSome
    · rw [if_pos hs]
      rcases List.mem_cons.mp hc with rfl | hc'
      · rw [hnone] at hs
        simp at hs
      · exact ih hc' hnone
    · rw [if_neg hs]
      by_cases hk : lower c.name = lower c0.name
      · have hset : (mapSet m (lower c0.name) 1).lookup (lower c.name) = some 1 := by
          rw [lookup_mapSet, if_pos hk]
        exact forcedPass_preserves hset
      · rcases List.mem_cons.mp hc with rfl | hc'
        · exact absurd rfl hk
        · refine ih hc' ?_
          rw [lookup_mapSet, if_neg hk]
          exact hnone

theorem mapSet_values {m : LayerMap} {k : String} {v : Nat}
    (hm : ∀ p ∈ m, 1 ≤ p.2) (hv : 1 ≤ v) : ∀ p ∈ mapSet m k v, 1 ≤ p.2 := by
  intro p hp
  rcases mem_mapSet hp with hp | rfl
  · exact hm p hp
  · exact hv

theorem initLayers_values (ctes : List CteDefinition) (cteNames : List String) :
    ∀ p ∈ initLayers ctes cteNames, 1 ≤ p.2 := by
  unfold initLayers
  refine foldl_inv (P := fun m : LayerMap => ∀ p ∈ m, 1 ≤ p.2) ctes _ [] (by simp)
    (fun acc c _ hacc => ?_)
  show ∀ p ∈ (if c.referencedCtes.any (fun r => (cteNames.contains (lower r))) then acc
      else mapSet acc (lower c.name) 1), 1 ≤ p.2
  by_cases hdep : c.referencedCtes.any (fun r => cteNames.contains (lower r))
  · rw [if_pos hdep]
    exact hacc
  · rw [if_neg hdep]
    exact mapSet_values hacc (le_refl 1)

theorem layerRoundStep_values {cteNames : List String} {acc : LayerMap × Bool}
    {c : CteDefinition} (hacc : ∀ p ∈ acc.1, 1 ≤ p.2) :
    ∀ p ∈ (layerRoundStep cteNames acc c).1, 1 ≤ p.2 := by
  unfold layerRoundStep
  by_cases hs : (acc.1.lookup (lower c.name)).isSome
  · rw [if_pos hs]
    exact hacc
  · rw [if_neg hs]
    rcases hr : resolveRefs acc.1 cteNames c.referencedCtes with _ | refLayers
    · exact hacc
    · exact mapSet_values hacc (Nat.le_add_left 1 _)

theorem layerRound_values {ctes : List CteDefinition} {cteNames : List String}
    {m : LayerMap} (hm : ∀ p ∈ m, 1 ≤ p.2) :
    ∀ p ∈ (layerRound ctes cteNames m).1, 1 ≤ p.2 := by
  unfold layerRound
  exact foldl_inv (P := fun acc : LayerMap × Bool => ∀ p ∈ acc.1, 1 ≤ p.2)
    ctes _ (m, false) hm (fun acc c _ hacc => layerRoundStep_values hacc)

theorem layerLoop_values {ctes : List CteDefinition} {cteNames : List String}
    (fuel : Nat) {m : LayerMap} (hm : ∀ p ∈ m, 1 ≤ p.2) :
    ∀ p ∈ layerLoop ctes cteNames fuel m, 1 ≤ p.2 := by
  induction fuel generalizing m with
  | zero => exact hm
  | succ f ih =>
    rw [layerLoop]
    by_cases hr : (layerRound ctes cteNames m).2
    · simp only [hr, if_true]
      exact ih (layerRound_values hm)
    · simp only [hr, if_false]
      exact layerRound_values hm

theorem forcedPass_values {ctes : List CteDefinition} {m : LayerMap}
    (hm : ∀ p ∈ m, 1 ≤ p.2) : ∀ p ∈ forcedPass ctes m, 1 ≤ p.2 := by
  unfold forcedPass
  refine foldl_inv (P := fun m : LayerMap => ∀ p ∈ m, 1 ≤ p.2) ctes _ m hm
    (fun acc c _ hacc => ?_)
  show ∀ p ∈ (if (acc.lookup (lower c.name)).isSome then acc
      else mapSet acc (lower c.name) 1), 1 ≤ p.2
  by_cases hs : (acc.lookup (lower c.name)).isSome
  · rw [if_pos hs]
    exact hacc
  · rw [if_neg hs]
    exact mapSet_values hacc (le_refl 1)

/-- Every value in the final layer map is at least 1. -/
theorem calculateCteLayers_values_ge1 (ctes : List CteDefinition) :
    ∀ p ∈ calculateCteLayers ctes, 1 ≤ p.2 := by
  unfold calculateCteLayers cteLayersPostIter
  exact forcedPass_values (layerLoop_values _ (initLayers_values _ _))

/-- Totality: the final layer map binds every CTE's lower-cased name. -/
theorem calculateCteLayers_total {ctes : List CteDefinition} {c : CteDefinition}
    (hc : c ∈ ctes) : ∃ v, (calculateCteLayers ctes).lookup (lower c.name) = some v := by
  unfold calculateCteLayers
  rcases hpi : (cteLayersPostIter ctes).lookup (lower c.name) with _ | v
  · exact ⟨1, forcedPass_forces hc hpi⟩
  · exact ⟨v, forcedPass_preserves hpi⟩


/-! ### The resolution invariant: a resolved CTE's layer is one more than
the maximum of its known dependencies' layers -/

theorem resolveRefs_mono {m m' : LayerMap} {cteNames : List String}
    {rs : List String} {rl : List Nat}
    (hsub : ∀ k v, m.lookup k = some v → m'.lookup k = some v)
    (h : resolveRefs m cteNames rs = some rl) : resolveRefs m' cteNames rs = some rl := by
  induction rs generalizing rl with
  | nil =>
    rw [resolveRefs] at h ⊢
    exact h
  | cons r rest ih =>
    rw [resolveRefs] at h ⊢
    by_cases hc : (cteNames.contains (lower r)) = true
    · rw [if_pos hc] at h ⊢
      rcases hl : m.lookup (lower r) with _ | lv
      · rw [hl] at h
        exact Option.noConfusion h
      · rw [hl] at h
        rw [hsub _ _ hl]
        rcases ht : resolveRefs m cteNames rest with _ | tl
        · rw [ht] at h
          exact Option.noConfusion h
        · rw [ht] at h
          rw [ih ht]
          exact h
    · rw [if_neg hc] at h ⊢
      exact ih h

theorem resolveRefs_none {m : LayerMap} {cteNames : List String} {rs : List String}
    (h : resolveRefs m cteNames rs = none) :
    ∃ r ∈ rs, cteNames.contains (lower r) = true ∧ m.lookup (lower r) = none := by
  induction rs with
  | nil => exact Option.noConfusion h
  | cons r rest ih =>
    rw [resolveRefs] at h
    by_cases hc : (cteNames.contains (lower r)) = true
    · rw [if_pos hc] at h
      rcases hl : m.lookup (lower r) with _ | lv
      · exact ⟨r, List.mem_cons_self _ _, hc, hl⟩
      · rw [hl] at h
        rcases ht : resolveRefs m cteNames rest with _ | tl
        · rcases ih ht with ⟨r', hr', hc', hl'⟩
          exact ⟨r', List.mem_cons_of_mem _ hr', hc', hl'⟩
        · rw [ht] at h
          exact Option.noConfusion h
    · rw [if_neg hc] at h
      rcases ih h with ⟨r', hr', hc', hl'⟩
      exact ⟨r', List.mem_cons_of_mem _ hr', hc', hl'⟩

theorem resolveRefs_of_no_known {m : LayerMap} {cteNames : List String}
    {rs : List String} (h : ∀ r ∈ rs, ¬ (cteNames.contains (lower r) = true)) :
    resolveRefs m cteNames rs = some [] := by
  induction rs with
  | nil => rfl
  | cons r rest ih =>
    rw [resolveRefs, if_neg (h r (List.mem_cons_self _ _))]
    exact ih (fun r' hr' => h r' (List.mem_cons_of_mem _ hr'))

theorem resolveRefs_elem {m : LayerMap} {cteNames : List String} {rs : List String}
    {rl : List Nat} {r : String} (h : resolveRefs m cteNames rs = some rl)
    (hr : r ∈ rs) (hk : cteNames.contains (lower r) = true) :
    ∃ lv, m.lookup (lower r) = some lv ∧ lv ∈ rl := by
  induction rs generalizing rl with
  | nil => simp at hr
  | cons r0 rest ih =>
    rw [resolveRefs] at h
    by_cases hc : (cteNames.contains (lower r0)) = true
    · rw [if_pos hc] at h
      rcases hl : m.lookup (lower r0) with _ | lv0
      · rw [hl] at h
        exact Option.noConfusion h
      · rw [hl] at h
        rcases ht : resolveRefs m cteNames rest with _ | tl
        · rw [ht] at h
          exact Option.noConfusion h
        · rw [ht] at h
          injection h with h
          subst h
          rcases List.mem_cons.mp hr with rfl | hr'
          · exact ⟨lv0, hl, List.mem_cons_self _ _⟩
          · rcases ih ht hr' with ⟨lv, hlv, hmem⟩
            exact ⟨lv, hlv, List.mem_cons_of_mem _ hmem⟩
    · rw [if_neg hc] at h
      rcases List.mem_cons.mp hr with rfl | hr'
      · exact absurd hk hc
      · exact ih h hr'

/-- The `maxRefLayer` computation of the source (`refLayers.length > 0 ?
Math.max(...refLayers) : 0`) equals a plain fold. -/
theorem maxRefLayer_eq (rl : List Nat) :
    (if rl.length > 0 then rl.foldl max 0 else 0) = rl.foldl max 0 := by
  rcases rl with _ | ⟨a, t⟩
  · rfl
  · rw [if_pos]
    simp

/-- The resolution invariant: every binding of the map equals one plus the
folded maximum of the layers of its known references, resolved in the same
map. -/
def GoodLayers (ctes : List CteDefinition) (cteNames : List String) (m : LayerMap) : Prop :=
  ∀ c ∈ ctes, ∀ v, m.lookup (lower c.name) = some v →
    ∃ rl, resolveRefs m cteNames c.referencedCtes = some rl ∧ v = rl.foldl max 0 + 1

theorem initLayers_good (ctes : List CteDefinition)
    (hd : (cteNamesOf ctes).Nodup) :
    GoodLayers ctes (cteNamesOf ctes) (initLayers ctes (cteNamesOf ctes))
      ∧ ∀ p ∈ initLayers ctes (cteNamesOf ctes), p.2 = 1 := by
  unfold initLayers
  refine foldl_inv
    (P := fun m : LayerMap => GoodLayers ctes (cteNamesOf ctes) m ∧ ∀ p ∈ m, p.2 = 1)
    ctes _ [] ⟨fun c _ v hv => by simp [List.lookup] at hv, by simp⟩
    (fun acc c0 hc0 hacc => ?_)
  rcases hacc with ⟨hgood, hones⟩
  show GoodLayers ctes (cteNamesOf ctes)
      (if c0.referencedCtes.any (fun r => ((cteNamesOf ctes).contains (lower r))) then acc
        else mapSet acc (lower c0.name) 1)
    ∧ ∀ p ∈ (if c0.referencedCtes.any (fun r => ((cteNamesOf ctes).contains (lower r))) then acc
        else mapSet acc (lower c0.name) 1), p.2 = 1
  by_cases hdep : c0.referencedCtes.any (fun r => ((cteNamesOf ctes).contains (lower r))) = true
  · rw [if_pos hdep]
    exact ⟨hgood, hones⟩
  · rw [if_neg hdep]
    have hnoknown : ∀ r ∈ c0.referencedCtes, ¬ ((cteNamesOf ctes).contains (lower r) = true) := by
      intro r hr hk
      exact hdep (List.any_eq_true.mpr ⟨r, hr, hk⟩)
    have hsame : ∀ k, (mapSet acc (lower c0.name) 1).lookup k
        = if k = lower c0.name then some 1 else acc.lookup k := by
      intro k
      exact lookup_mapSet acc (lower c0.name) 1 k
    have hsub : ∀ k v, acc.lookup k = some v → (mapSet acc (lower c0.name) 1).lookup k = some v := by
      intro k v hv
      rw [hsame k]
      by_cases hk : k = lower c0.name
      · rw [if_pos hk]
        rw [hk] at hv
        have := hones _ (lookup_mem hv)
        simp only at this
        rw [← this]
      · rw [if_neg hk]
        exact hv
    constructor
    · intro c hc v hv
      rw [hsame (lower c.name)] at hv
      by_cases hk : lower c.name = lower c0.name
      · rw [if_pos hk] at hv
        injection hv with hv
        subst hv
        have hcc : c = c0 :=
          List.inj_on_of_nodup_map hd hc hc0 (by rw [hk])
        subst hcc
        refine ⟨[], resolveRefs_of_no_known hnoknown, rfl⟩
      · rw [if_neg hk] at hv
        rcases hgood c hc v hv with ⟨rl, hrl, hveq⟩
        exact ⟨rl, resolveRefs_mono hsub hrl, hveq⟩
    · intro p hp
      rcases mem_mapSet hp with hp | rfl
      · exact hones p hp
      · rfl

theorem layerRoundStep_good {ctes : List CteDefinition} {acc : LayerMap × Bool}
    {c0 : CteDefinition} (hd : (cteNamesOf ctes).Nodup) (hc0 : c0 ∈ ctes)
    (hgood : GoodLayers ctes (cteNamesOf ctes) acc.1) :
    GoodLayers ctes (cteNamesOf ctes) (layerRoundStep (cteNamesOf ctes) acc c0).1 := by
  unfold layerRoundStep
  by_cases hs : (acc.1.lookup (lower c0.name)).isSome
  · rw [if_pos hs]
    exact hgood
  · rw [if_neg hs]
    rcases hr : resolveRefs acc.1 (cteNamesOf ctes) c0.referencedCtes with _ | refLayers
    · exact hgood
    · show GoodLayers ctes (cteNamesOf ctes)
        (mapSet acc.1 (lower c0.name) ((if refLayers.length > 0 then refLayers.foldl max 0 else 0) + 1))
      rw [maxRefLayer_eq]
      have hsub : ∀ k v, acc.1.lookup k = some v →
          (mapSet acc.1 (lower c0.name) (refLayers.foldl max 0 + 1)).lookup k = some v := by
        intro k v hv
        rw [lookup_mapSet, if_neg]
        · exact hv
        · intro hk
          rw [hk] at hv
          exact hs (by rw [hv]; rfl)
      intro c hc v hv
      rw [lookup_mapSet] at hv
      by_cases hk : lower c.name = lower c0.name
      · rw [if_pos hk] at hv
        injection hv with hv
        have hcc : c = c0 := List.inj_on_of_nodup_map hd hc hc0 (by rw [hk])
        subst hcc
        exact ⟨refLayers, resolveRefs_mono hsub hr, hv.symm⟩
      · rw [if_neg hk] at hv
        rcases hgood c hc v hv with ⟨rl, hrl, hveq⟩
        exact ⟨rl, resolveRefs_mono hsub hrl, hveq⟩

theorem layerRound_good {ctes : List CteDefinition} {m : LayerMap}
    (hd : (cteNamesOf ctes).Nodup) (hgood : GoodLayers ctes (cteNamesOf ctes) m) :
    GoodLayers ctes (cteNamesOf ctes) (layerRound ctes (cteNamesOf ctes) m).1 := by
  unfold layerRound
  exact foldl_inv
    (P := fun acc : LayerMap × Bool => GoodLayers ctes (cteNamesOf ctes) acc.1)
    ctes _ (m, false) hgood (fun acc c hc hacc => layerRoundStep_good hd hc hacc)

theorem layerLoop_good {ctes : List CteDefinition} (fuel : Nat) {m : LayerMap}
    (hd : (cteNamesOf ctes).Nodup) (hgood : GoodLayers ctes (cteNamesOf ctes) m) :
    GoodLayers ctes (cteNamesOf ctes) (layerLoop ctes (cteNamesOf ctes) fuel m) := by
  induction fuel generalizing m with
  | zero => exact hgood
  | succ f ih =>
    rw [layerLoop]
    by_cases hr : (layerRound ctes (cteNamesOf ctes) m).2
    · simp only [hr, if_true]
      exact ih (layerRound_good hd hgood)
    · simp only [hr, if_false]
      exact layerRound_good hd hgood

/-- The post-iteration map satisfies the resolution invariant. -/
theorem cteLayersPostIter_good {ctes : List CteDefinition}
    (hd : (cteNamesOf ctes).Nodup) :
    GoodLayers ctes (cteNamesOf ctes) (cteLayersPostIter ctes) := by
  unfold cteLayersPostIter
  exact layerLoop_good _ hd (initLayers_good ctes hd).1

/-- A CTE resolved by the fixed-point iteration keeps, in the final map, a
layer equal to one plus the folded maximum of its known dependencies' final
layers. -/
theorem cteLayers_resolved_eq {ctes : List CteDefinition} {c : CteDefinition}
    (hd : (cteNamesOf ctes).Nodup) (hc : c ∈ ctes)
    (hres : ((cteLayersPostIter ctes).lookup (lower c.name)).isSome) :
    ∃ rl, resolveRefs (calculateCteLayers ctes) (cteNamesOf ctes) c.referencedCtes = some rl
      ∧ (calculateCteLayers ctes).lookup (lower c.name) = some (rl.foldl max 0 + 1) := by
  rcases Option.isSome_iff_exists.mp hres with ⟨v, hv⟩
  rcases cteLayersPostIter_good hd c hc v hv with ⟨rl, hrl, hveq⟩
  have hsub : ∀ k w, (cteLayersPostIter ctes).lookup k = some w →
      (calculateCteLayers ctes).lookup k = some w := by
    intro k w hw
    unfold calculateCteLayers
    exact forcedPass_preserves hw
  refine ⟨rl, resolveRefs_mono hsub hrl, ?_⟩
  rw [← hveq]
  exact hsub _ _ hv


/-! ### Fixed-point termination and the cycle characterization -/

theorem layerRoundStep_cases (cteNames : List String) (acc : LayerMap × Bool)
    (c : CteDefinition) :
    layerRoundStep cteNames acc c = acc
      ∨ (acc.1.lookup (lower c.name) = none
          ∧ ∃ v, layerRoundStep cteNames acc c = (mapSet acc.1 (lower c.name) v, true)) := by
  unfold layerRoundStep
  by_cases hs : (acc.1.lookup (lower c.name)).isSome
  · rw [if_pos hs]
    exact Or.inl rfl
  · rw [if_neg hs]
    rcases hr : resolveRefs acc.1 cteNames c.referencedCtes with _ | refLayers
    · exact Or.inl rfl
    · exact Or.inr ⟨Option.not_isSome_iff_eq_none.mp hs, _, rfl⟩

theorem layerRoundStep_flag_true {cteNames : List String} {acc : LayerMap × Bool}
    {c : CteDefinition} (h : acc.2 = true) : (layerRoundStep cteNames acc c).2 = true := by
  rcases layerRoundStep_cases cteNames acc c with he | ⟨_, v, he⟩
  · rw [he]
    exact h
  · rw [he]

theorem roundFold_flag_true {l : List CteDefinition} {cteNames : List String}
    {acc : LayerMap × Bool} (h : acc.2 = true) :
    (l.foldl (layerRoundStep cteNames) acc).2 = true := by
  induction l generalizing acc with
  | nil => exact h
  | cons c t ih =>
    rw [List.foldl_cons]
    exact ih (layerRoundStep_flag_true h)

theorem roundFold_false {l : List CteDefinition} {cteNames : List String} {m : LayerMap}
    (h : (l.foldl (layerRoundStep cteNames) (m, false)).2 = false) :
    (l.foldl (layerRoundStep cteNames) (m, false)).1 = m
      ∧ ∀ c ∈ l, layerRoundStep cteNames (m, false) c = (m, false) := by
  induction l with
  | nil => exact ⟨rfl, by simp⟩
  | cons c0 t ih =>
    rw [List.foldl_cons] at h ⊢
    rcases layerRoundStep_cases cteNames (m, false) c0 with he | ⟨_, v, he⟩
    · rw [he] at h ⊢
      rcases ih h with ⟨h1, h2⟩
      refine ⟨h1, fun c hc => ?_⟩
      rcases List.mem_cons.mp hc with rfl | hc'
      · exact he
      · exact h2 c hc'
    · rw [he] at h
      rw [roundFold_flag_true rfl] at h
      exact Bool.noConfusion h

/-- At a fixed point of the round, every unresolved CTE has a known,
unresolved reference. -/
theorem unresolved_has_unresolved_ref {ctes : List CteDefinition}
    {cteNames : List String} {m : LayerMap}
    (hfix : (layerRound ctes cteNames m).2 = false)
    {c : CteDefinition} (hc : c ∈ ctes) (hnone : m.lookup (lower c.name) = none) :
    ∃ r ∈ c.referencedCtes, cteNames.contains (lower r) = true
      ∧ m.lookup (lower r) = none := by
  unfold layerRound at hfix
  rcases roundFold_false hfix with ⟨_, hsteps⟩
  have hstep := hsteps c hc
  unfold layerRoundStep at hstep
  rw [if_neg (by rw [hnone]; simp)] at hstep
  rcases hr : resolveRefs m cteNames c.referencedCtes with _ | refLayers
  · exact resolveRefs_none hr
  · rw [hr] at hstep
    have := congrArg Prod.snd hstep
    simp at this

/-- Number of CTE names not yet bound in the map. -/
def unboundCount (cteNames : List String) (m : LayerMap) : Nat :=
  (dedupKeepFirst cteNames).countP (fun k => (m.lookup k).isNone)

theorem countP_lt_of_witness {l : List String} {p q : String → Bool}
    (hmono : ∀ a ∈ l, p a = true → q a = true) {a0 : String} (ha0 : a0 ∈ l)
    (hp : p a0 = false) (hq : q a0 = true) : l.countP p < l.countP q := by
  induction l with
  | nil => simp at ha0
  | cons a t ih =>
    rw [List.countP_cons, List.countP_cons]
    rcases List.mem_cons.mp ha0 with rfl | ha0'
    · rw [hp, hq]
      have e0 : (if false = true then 1 else 0) = 0 := rfl
      have e1 : (if true = true then 1 else 0) = 1 := rfl
      rw [e0, e1]
      have hle := List.countP_mono_left (l := t)
        (fun x hx => hmono x (List.mem_cons_of_mem _ hx))
      omega
    · have hlt := ih (fun x hx => hmono x (List.mem_cons_of_mem _ hx)) ha0'
      by_cases hpa : p a = true
      · rw [hpa, hmono a (List.mem_cons_self _ _) hpa]
        omega
      · rw [Bool.not_eq_true] at hpa
        rw [hpa]
        have : (if false = true then 1 else 0) = 0 := rfl
        rw [this]
        by_cases hqa : q a = true
        · rw [hqa]
          omega
        · rw [Bool.not_eq_true] at hqa
          rw [hqa, this]
          omega

theorem unboundCount_le {cteNames : List String} {m m' : LayerMap}
    (hsub : ∀ k v, m.lookup k = some v → m'.lookup k = some v) :
    unboundCount cteNames m' ≤ unboundCount cteNames m := by
  unfold unboundCount
  refine List.countP_mono_left (fun k _ hk => ?_)
  rw [Option.isNone_iff_eq_none] at hk ⊢
  rcases hl : m.lookup k with _ | v
  · rfl
  · rw [hsub k v hl] at hk
    exact Option.noConfusion hk

theorem unboundCount_lt {cteNames : List String} {m : LayerMap} {k0 : String} {v : Nat}
    (hk0 : k0 ∈ cteNames) (hnone : m.lookup k0 = none) :
    unboundCount cteNames (mapSet m k0 v) < unboundCount cteNames m := by
  unfold unboundCount
  refine countP_lt_of_witness (fun k _ hk => ?_) (mem_dedupKeepFirst.mpr hk0) ?_ ?_
  · rw [Option.isNone_iff_eq_none] at hk ⊢
    rcases hl : m.lookup k with _ | w
    · rfl
    · have := lookup_mapSet m k0 v k
      rw [hk] at this
      by_cases hkk : k = k0
      · rw [if_pos hkk] at this
        exact Option.noConfusion this
      · rw [if_neg hkk] at this
        rw [hl] at this
        exact Option.noConfusion this
  · have := lookup_mapSet m k0 v k0
    rw [if_pos rfl] at this
    rw [this]
    rfl
  · rw [hnone]
    rfl

/-- A round that reports progress strictly shrinks the set of unbound CTE
names, and never grows it. -/
theorem layerRound_unbound {ctes : List CteDefinition} {cteNames : List String}
    {m : LayerMap} (hl : ∀ c ∈ ctes, lower c.name ∈ cteNames) :
    unboundCount cteNames (layerRound ctes cteNames m).1 ≤ unboundCount cteNames m
      ∧ ((layerRound ctes cteNames m).2 = true →
          unboundCount cteNames (layerRound ctes cteNames m).1 < unboundCount cteNames m) := by
  unfold layerRound
  refine foldl_inv
    (P := fun acc : LayerMap × Bool =>
      (∀ k v, m.lookup k = some v → acc.1.lookup k = some v)
        ∧ unboundCount cteNames acc.1 ≤ unboundCount cteNames m
        ∧ (acc.2 = true → unboundCount cteNames acc.1 < unboundCount cteNames m))
    ctes _ (m, false) ⟨fun k v hv => hv, le_refl _, fun h => Bool.noConfusion h⟩
    (fun acc c hc hacc => ?_) |>.2
  rcases hacc with ⟨hsub, hle, hlt⟩
  rcases layerRoundStep_cases cteNames acc c with he | ⟨hnone, v, he⟩
  · rw [he]
    exact ⟨hsub, hle, hlt⟩
  · rw [he]
    have hk0 : lower c.name ∈ cteNames := hl c hc
    have hstrict := unboundCount_lt (m := acc.1) (v := v) hk0 hnone
    refine ⟨?_, ?_, fun _ => lt_of_lt_of_le hstrict hle⟩
    · intro k w hw
      have hsw := hsub k w hw
      rw [lookup_mapSet, if_neg]
      · exact hsw
      · intro hkk
        rw [hkk, hnone] at hsw
        exact Option.noConfusion hsw
    · exact le_trans (le_of_lt hstrict) hle

/-- With enough fuel the loop ends at a fixed point of the round. -/
theorem layerLoop_round_false {ctes : List CteDefinition} {cteNames : List String}
    (hl : ∀ c ∈ ctes, lower c.name ∈ cteNames) :
    ∀ (fuel : Nat) (m : LayerMap), unboundCount cteNames m < fuel →
      (layerRound ctes cteNames (layerLoop ctes cteNames fuel m)).2 = false := by
  intro fuel
  induction fuel with
  | zero => exact fun m hm => absurd hm (Nat.not_lt_zero _)
  | succ f ih =>
    intro m hm
    rw [layerLoop]
    by_cases hr : (layerRound ctes cteNames m).2
    · simp only [hr, if_true]
      refine ih _ ?_
      have := (layerRound_unbound (m := m) hl).2 hr
      omega
    · simp only [hr, if_false]
      have hfm := (@roundFold_false ctes cteNames m
        (by simpa [layerRound] using Bool.not_eq_true _ ▸ hr)).1
      have : (layerRound ctes cteNames m).1 = m := by
        unfold layerRound
        exact hfm
      rw [this]
      simpa using hr

/-- One step of the CTE reference relation: CTE `a` references name `b`. -/
def cteRefStep (ctes : List CteDefinition) (a b : String) : Prop :=
  ∃ c ∈ ctes, lower c.name = a ∧ ∃ r ∈ c.referencedCtes, lower r = b

/-- A CTE left unresolved by the fixed-point iteration certifies a cycle in
the CTE reference relation. -/
theorem postIter_unresolved_cycle {ctes : List CteDefinition} {c : CteDefinition}
    (hc : c ∈ ctes) (hun : (cteLayersPostIter ctes).lookup (lower c.name) = none) :
    ∃ x, Relation.TransGen (cteRefStep ctes) x x := by
  set M := cteLayersPostIter ctes with hM
  have hl : ∀ c' ∈ ctes, lower c'.name ∈ cteNamesOf ctes :=
    fun c' hc' => List.mem_map_of_mem _ hc'
  have hfuel : unboundCount (cteNamesOf ctes) (initLayers ctes (cteNamesOf ctes))
      < ctes.length + 1 := by
    have h1 : unboundCount (cteNamesOf ctes) (initLayers ctes (cteNamesOf ctes))
        ≤ (dedupKeepFirst (cteNamesOf ctes)).length := List.countP_le_length _
    have h2 := length_dedupKeepFirst_le (cteNamesOf ctes)
    have h3 : (cteNamesOf ctes).length = ctes.length := List.length_map _ _
    omega
  have hfix : (layerRound ctes (cteNamesOf ctes) M).2 = false := by
    rw [hM]
    unfold cteLayersPostIter
    exact layerLoop_round_false hl _ _ hfuel
  have hstep : ∀ k, (k ∈ cteNamesOf ctes ∧ M.lookup k = none) →
      ∃ k', (k' ∈ cteNamesOf ctes ∧ M.lookup k' = none) ∧ cteRefStep ctes k k' := by
    rintro k ⟨hkmem, hknone⟩
    rcases List.mem_map.mp hkmem with ⟨c', hc', hck⟩
    rcases unresolved_has_unresolved_ref hfix hc' (by rw [hck]; exact hknone)
      with ⟨r, hr, hrc, hrnone⟩
    exact ⟨lower r, ⟨contains_iff.mp hrc, hrnone⟩,
      ⟨c', hc', hck, r, hr, rfl⟩⟩
  classical
  have hstep2 : ∀ p : { k : String // k ∈ cteNamesOf ctes ∧ M.lookup k = none },
      ∃ q : { k : String // k ∈ cteNamesOf ctes ∧ M.lookup k = none },
        cteRefStep ctes p.1 q.1 := by
    rintro ⟨k, hk⟩
    rcases hstep k hk with ⟨k', hk', hs⟩
    exact ⟨⟨k', hk'⟩, hs⟩
  choose F hF using hstep2
  set g : Nat → { k : String // k ∈ cteNamesOf ctes ∧ M.lookup k = none } :=
    fun i => F^[i] ⟨lower c.name, hl c hc, hun⟩ with hg
  have hgs : ∀ i, cteRefStep ctes (g i).1 (g (i + 1)).1 := by
    intro i
    have hge : g (i + 1) = F (g i) := Function.iterate_succ_apply' F i _
    rw [hge]
    exact hF (g i)
  have hchain : ∀ i d, 1 ≤ d → Relation.TransGen (cteRefStep ctes) (g i).1 (g (i + d)).1 := by
    intro i d hd
    induction d, hd using Nat.le_induction with
    | base => exact Relation.TransGen.single (hgs i)
    | succ n hn ih =>
      have he : i + (n + 1) = (i + n) + 1 := by omega
      rw [he]
      exact Relation.TransGen.tail ih (hgs (i + n))
  have hcard : ((cteNamesOf ctes).toFinset).card
      < (Finset.range ((cteNamesOf ctes).length + 1)).card := by
    rw [Finset.card_range]
    exact Nat.lt_succ_of_le (List.toFinset_card_le _)
  have hmaps : ∀ i ∈ Finset.range ((cteNamesOf ctes).length + 1),
      (g i).1 ∈ (cteNamesOf ctes).toFinset :=
    fun i _ => List.mem_toFinset.mpr (g i).2.1
  rcases Finset.exists_ne_map_eq_of_card_lt_of_maps_to hcard hmaps
    with ⟨i, _, j, _, hne, heq⟩
  rcases Nat.lt_or_ge i j with hij | hij
  · refine ⟨(g i).1, ?_⟩
    have hch := hchain i (j - i) (by omega)
    rw [show i + (j - i) = j by omega] at hch
    rw [← heq] at hch
    exact hch
  · have hji : j < i := by
      rcases Nat.lt_or_ge j i with h | h
      · exact h
      · exact absurd (Nat.le_antisymm hij h).symm hne
    refine ⟨(g j).1, ?_⟩
    have hch := hchain j (i - j) (by omega)
    rw [show j + (i - j) = i by omega] at hch
    rw [heq] at hch
    exact hch


/-! ### Claim C7 (amended): the layer assignment contract -/

theorem init_step_keeps1 {l : List CteDefinition} {cteNames : List String}
    {m : LayerMap} {k : String} (h : m.lookup k = some 1) :
    (l.foldl (fun m cte =>
      if cte.referencedCtes.any (fun r => cteNames.contains (lower r)) then m
      else mapSet m (lower cte.name) 1) m).lookup k = some 1 := by
  refine foldl_inv (P := fun m : LayerMap => m.lookup k = some 1) l _ m h
    (fun acc c _ hacc => ?_)
  show (if c.referencedCtes.any (fun r => cteNames.contains (lower r)) then acc
      else mapSet acc (lower c.name) 1).lookup k = some 1
  by_cases hdep : c.referencedCtes.any (fun r => cteNames.contains (lower r)) = true
  · rw [if_pos hdep]
    exact hacc
  · rw [if_neg hdep]
    rw [lookup_mapSet]
    by_cases hk : k = lower c.name
    · rw [if_pos hk]
    · rw [if_neg hk]
      exact hacc

/-- A CTE with no known CTE dependency is bound to 1 by the initialization
pass. -/
theorem initLayers_binds_noDep {ctes : List CteDefinition} {cteNames : List String}
    {c : CteDefinition} (hc : c ∈ ctes)
    (hnodep : ¬ (c.referencedCtes.any (fun r => cteNames.contains (lower r)) = true)) :
    (initLayers ctes cteNames).lookup (lower c.name) = some 1 := by
  unfold initLayers
  suffices h : ∀ m : LayerMap,
      (ctes.foldl (fun m cte =>
        if cte.referencedCtes.any (fun r => cteNames.contains (lower r)) then m
        else mapSet m (lower cte.name) 1) m).lookup (lower c.name) = some 1
        ∨ ((ctes.foldl (fun m cte =>
        if cte.referencedCtes.any (fun r => cteNames.contains (lower r)) then m
        else mapSet m (lower cte.name) 1) m).lookup (lower c.name) = m.lookup (lower c.name)
          ∧ False) by
    rcases h [] with h | ⟨_, hfalse⟩
    · exact h
    · exact absurd hfalse id
  intro m
  left
  induction ctes generalizing m with
  | nil => simp at hc
  | cons c0 rest ih =>
    rw [List.foldl_cons]
    rcases List.mem_cons.mp hc with rfl | hc'
    · rw [if_neg hnodep]
      exact init_step_keeps1 (by rw [lookup_mapSet, if_pos rfl])
    · exact ih hc' _

theorem jsOrNat_of_ge1 {v d : Nat} (h : 1 ≤ v) : jsOrNat (some v) d = v := by
  show (if v = 0 then d else v) = v
  rw [if_neg]
  omega

theorem init_le_foldl_max (l : List Nat) (init : Nat) : init ≤ l.foldl max init := by
  induction l generalizing init with
  | nil => exact le_refl _
  | cons a t ih => exact le_trans (Nat.le_max_left init a) (ih (max init a))

theorem le_foldl_max {l : List Nat} {a : Nat} (h : a ∈ l) (init : Nat) :
    a ≤ l.foldl max init := by
  induction l generalizing init with
  | nil => simp at h
  | cons b t ih =>
    rw [List.foldl_cons]
    rcases List.mem_cons.mp h with rfl | h'
    · exact le_trans (Nat.le_max_right init a) (init_le_foldl_max t _)
    · exact ih h' _

theorem lookup_value_ge1 {ctes : List CteDefinition} {k : String} {v : Nat}
    (h : (calculateCteLayers ctes).lookup k = some v) : 1 ≤ v :=
  calculateCteLayers_values_ge1 ctes (k, v) (lookup_mem h)

/-- C7 (amended): for every CTE definition list with pairwise-distinct
lower-cased names, `calculateCteLayers` returns a total map, never raising:
every CTE gets a layer of at least 1; a CTE whose references include no
known CTE name gets layer 1; a CTE resolved by the bounded fixed-point
iteration gets max(known dependency layers) + 1; and a CTE left unresolved
by the iteration — in which case the CTE reference relation provably has a
cycle — is forced to layer 1.  Without the distinctness proviso the claim
fails at a duplicated definition (`C7_counterexample`). -/
theorem C7_layer_assignment_amended (ctes : List CteDefinition)
    (hd : (cteNamesOf ctes).Nodup) :
    (∀ c ∈ ctes, ∃ v, (calculateCteLayers ctes).lookup (lower c.name) = some v ∧ 1 ≤ v)
      ∧ (∀ c ∈ ctes,
          (∀ r ∈ c.referencedCtes, ¬ ((cteNamesOf ctes).contains (lower r) = true)) →
          (calculateCteLayers ctes).lookup (lower c.name) = some 1)
      ∧ (∀ c ∈ ctes, ((cteLayersPostIter ctes).lookup (lower c.name)).isSome →
          ∃ rl, resolveRefs (calculateCteLayers ctes) (cteNamesOf ctes) c.referencedCtes
              = some rl
            ∧ (calculateCteLayers ctes).lookup (lower c.name) = some (rl.foldl max 0 + 1))
      ∧ (∀ c ∈ ctes, (cteLayersPostIter ctes).lookup (lower c.name) = none →
          (calculateCteLayers ctes).lookup (lower c.name) = some 1
            ∧ ∃ x, Relation.TransGen (cteRefStep ctes) x x) := by
  refine ⟨?_, ?_, ?_, ?_⟩
  · intro c hc
    rcases calculateCteLayers_total hc with ⟨v, hv⟩
    exact ⟨v, hv, lookup_value_ge1 hv⟩
  · intro c hc hnone
    have hnodep : ¬ (c.referencedCtes.any
        (fun r => (cteNamesOf ctes).contains (lower r)) = true) := by
      intro hany
      rcases List.any_eq_true.mp hany with ⟨r, hr, hcon⟩
      exact hnone r hr hcon
    have hinit := initLayers_binds_noDep hc hnodep
    have hpost : (cteLayersPostIter ctes).lookup (lower c.name) = some 1 := by
      unfold cteLayersPostIter
      exact layerLoop_preserves hinit
    unfold calculateCteLayers
    exact forcedPass_preserves hpost
  · intro c hc hres
    exact cteLayers_resolved_eq hd hc hres
  · intro c hc hnone
    constructor
    · unfold calculateCteLayers
      exact forcedPass_forces hc hnone
    · exact postIter_unresolved_cycle hc hnone

/-- Chain of two CTEs used as the concrete C7 witness. -/
def ctesChain : List CteDefinition :=
  [{ name := "c1", range := [], sourceTables := ["t1"], referencedCtes := [] },
   { name := "c2", range := [], sourceTables := [], referencedCtes := ["c1"] }]

/-- Witness for C7 (amended) on the chain `c1`, `c2`. -/
theorem C7_layer_assignment_amended_witness :
    (cteNamesOf ctesChain).Nodup
      ∧ ((∀ c ∈ ctesChain, ∃ v, (calculateCteLayers ctesChain).lookup (lower c.name) = some v
            ∧ 1 ≤ v)
        ∧ (∀ c ∈ ctesChain,
            (∀ r ∈ c.referencedCtes, ¬ ((cteNamesOf ctesChain).contains (lower r) = true)) →
            (calculateCteLayers ctesChain).lookup (lower c.name) = some 1)
        ∧ (∀ c ∈ ctesChain, ((cteLayersPostIter ctesChain).lookup (lower c.name)).isSome →
            ∃ rl, resolveRefs (calculateCteLayers ctesChain) (cteNamesOf ctesChain)
                c.referencedCtes = some rl
              ∧ (calculateCteLayers ctesChain).lookup (lower c.name)
                  = some (rl.foldl max 0 + 1))
        ∧ (∀ c ∈ ctesChain, (cteLayersPostIter ctesChain).lookup (lower c.name) = none →
            (calculateCteLayers ctesChain).lookup (lower c.name) = some 1
              ∧ ∃ x, Relation.TransGen (cteRefStep ctesChain) x x)) :=
  ⟨by decide, C7_layer_assignment_amended ctesChain (by decide)⟩


/-! ### Claim C4 (amended): layer monotonicity along edges -/

/-- A node found in the node map whose id carries the `cte_` tag was keyed
by a CTE name equal to the tagged remainder. -/
theorem bgNm_match_cte_id {o : SqlOracle} {sql k key : String} {n : LineageNode}
    (h : bgNm o sql k = some n) (hid : n.id = "cte_" ++ key) :
    k = key ∧ k ∈ cteNamesOf (bgCtes o sql) := by
  have htc : ("target_" : String).data.head? = some 't' := rfl
  have hcc : ("cte_" : String).data.head? = some 'c' := rfl
  have hsc : ("source_" : String).data.head? = some 's' := rfl
  rcases bgNm_shape h with ⟨_, e1, _⟩ | ⟨_, e1, hmem⟩ | ⟨_, e1, _⟩
  · rw [e1] at hid
    exact absurd hid (tag_ne_of_head htc hcc (by decide))
  · rw [e1] at hid
    exact ⟨append_tag_inj hid, hmem⟩
  · rw [e1] at hid
    exact absurd hid (tag_ne_of_head hsc hcc (by decide))

/-- Every layer stored in the final layer map is below the target layer. -/
theorem lookup_lt_targetLayer {o : SqlOracle} {sql k : String} {v : Nat}
    (h : (bgLayers o sql).lookup k = some v) : v < bgTargetLayer o sql := by
  have hmem : (k, v) ∈ bgLayers o sql := lookup_mem h
  have hv : v ∈ (bgLayers o sql).map (fun p => p.2) :=
    List.mem_map_of_mem (fun p => p.2) hmem
  have hle := le_foldl_max hv 0
  unfold bgTargetLayer
  omega

/-- C4 (amended): strict layer monotonicity along edges holds under four
provisos that exclude the code paths that violate it (see
`C4_counterexample` for the cyclic case): the lower-cased CTE names are
pairwise distinct, every CTE is resolved by the fixed-point iteration
(no reference cycle), no detected target shares its lower-cased name with a
CTE, and no CTE lists a CTE name among its plain source tables.  Then every
edge between two CTE nodes strictly increases the layer, and every edge
from a CTE node to a TARGET node strictly increases the layer. -/
theorem C4_layer_monotonic_amended (o : SqlOracle) (sql : String)
    (hd : (cteNamesOf (bgCtes o sql)).Nodup)
    (hres : ∀ c ∈ bgCtes o sql,
      ((cteLayersPostIter (bgCtes o sql)).lookup (lower c.name)).isSome)
    (htnc : ∀ t ∈ (bgBasic o sql).targets, lower t.fullName ∉ cteNamesOf (bgCtes o sql))
    (hsrc : ∀ c ∈ bgCtes o sql, ∀ st ∈ c.sourceTables, lower st ∉ cteNamesOf (bgCtes o sql))
    (e : LineageEdge) (he : e ∈ (buildLineageGraph o sql).edges)
    (nu nv : LineageNode)
    (hnu : nu ∈ (buildLineageGraph o sql).nodes) (hnv : nv ∈ (buildLineageGraph o sql).nodes)
    (hus : nu.id = e.source) (hvt : nv.id = e.target) :
    (nu.nodeType = NodeType.CTE → nv.nodeType = NodeType.CTE → nu.layer < nv.layer)
      ∧ (nu.nodeType = NodeType.CTE → nv.nodeType = NodeType.TARGET → nu.layer < nv.layer) := by
  constructor
  · intro hcu hcv
    rcases mem_nodes_cte hnu hcu with ⟨cu, hcumem, hnueq⟩
    rcases mem_nodes_cte hnv hcv with ⟨cv, hcvmem, hnveq⟩
    have hnuid : nu.id = "cte_" ++ lower cu.name := by rw [hnueq]; rfl
    have hnvid : nv.id = "cte_" ++ lower cv.name := by rw [hnveq]; rfl
    rcases List.mem_append.mp he with hce | hte
    · rcases mem_bgCteEdges_cases hce with
        ⟨cte, hcte, cteNode, hcn, ⟨st, hst, sn, hsn, hedge⟩ | ⟨rc, hrc, rn, hrn, hedge⟩⟩
      · exfalso
        subst hedge
        have hsid : sn.id = "cte_" ++ lower cu.name := (hus.symm.trans hnuid :)
        rcases bgNm_match_cte_id hsn hsid with ⟨_, hmem⟩
        exact hsrc cte hcte st hst hmem
      · subst hedge
        have hrid : rn.id = "cte_" ++ lower cu.name := (hus.symm.trans hnuid :)
        rcases bgNm_match_cte_id hrn hrid with ⟨hkequ, hmemu⟩
        have hcid : cteNode.id = "cte_" ++ lower cv.name := (hvt.symm.trans hnvid :)
        rcases bgNm_match_cte_id hcn hcid with ⟨hkeqv, _⟩
        rcases cteLayers_resolved_eq hd hcte (hres cte hcte) with ⟨rl, hrl, hfin⟩
        rcases resolveRefs_elem hrl hrc (contains_iff.mpr hmemu) with ⟨lv, hlv, hlvm⟩
        have hnul : nu.layer = lv := by
          rw [hnueq]
          show jsOrNat ((bgLayers o sql).lookup (lower cu.name)) 1 = lv
          rw [← hkequ]
          show jsOrNat ((calculateCteLayers (bgCtes o sql)).lookup (lower rc)) 1 = lv
          rw [hlv]
          exact jsOrNat_of_ge1 (lookup_value_ge1 hlv)
        have hnvl : nv.layer = rl.foldl max 0 + 1 := by
          rw [hnveq]
          show jsOrNat ((bgLayers o sql).lookup (lower cv.name)) 1 = rl.foldl max 0 + 1
          rw [← hkeqv]
          show jsOrNat ((calculateCteLayers (bgCtes o sql)).lookup (lower cte.name)) 1
              = rl.foldl max 0 + 1
          rw [hfin]
          exact jsOrNat_of_ge1 (by omega)
        rw [hnul, hnvl]
        have := le_foldl_max hlvm 0
        omega
    · exfalso
      rcases mem_bgTargetEdges_cases hte with
        ⟨target, htarget, targetNode, htn, hcases⟩
      have hveq : nv.id = e.target := hvt
      have htid : targetNode.id = "cte_" ++ lower cv.name := by
        rcases hcases with ⟨_, _, _, _, hedge⟩ | ⟨_, _, _, _, hedge⟩ | ⟨_, _, _, _, _, hedge⟩ <;>
          (subst hedge; exact (hveq.symm.trans hnvid :))
      rcases bgNm_match_cte_id htn htid with ⟨_, hmem⟩
      exact htnc target htarget hmem
  · intro hcu htv
    rcases mem_nodes_cte hnu hcu with ⟨cu, hcumem, hnueq⟩
    rcases mem_nodes_target hnv htv with ⟨t, htmem, hnveq⟩
    rcases calculateCteLayers_total hcumem with ⟨v, hv⟩
    have hnul : nu.layer = v := by
      rw [hnueq]
      show jsOrNat ((bgLayers o sql).lookup (lower cu.name)) 1 = v
      show jsOrNat ((calculateCteLayers (bgCtes o sql)).lookup (lower cu.name)) 1 = v
      rw [hv]
      exact jsOrNat_of_ge1 (lookup_value_ge1 hv)
    have hnvl : nv.layer = bgTargetLayer o sql := by rw [hnveq]; rfl
    rw [hnul, hnvl]
    exact lookup_lt_targetLayer hv

/-- Concrete CTE node `c1` of the `oracle7` run, for the C4 witness. -/
def nodeU : LineageNode :=
  { id := "cte_c1", name := "c1", fullName := "c1"
    nodeType := NodeType.CTE, statementType := none, layer := 1 }

/-- Concrete CTE node `c2` of the `oracle7` run, for the C4 witness. -/
def nodeV : LineageNode :=
  { id := "cte_c2", name := "c2", fullName := "c2"
    nodeType := NodeType.CTE, statementType := none, layer := 2 }

/-- Witness for C4 (amended) on the `oracle7` run: the edge `cte_c1 →
cte_c2` joins layers 1 and 2. -/
theorem C4_layer_monotonic_amended_witness :
    (cteNamesOf (bgCtes oracle7 sql7)).Nodup
      ∧ mkEdge "cte_c1" "cte_c2" ∈ (buildLineageGraph oracle7 sql7).edges
      ∧ ((nodeU.nodeType = NodeType.CTE → nodeV.nodeType = NodeType.CTE →
            nodeU.layer < nodeV.layer)
          ∧ (nodeU.nodeType = NodeType.CTE → nodeV.nodeType = NodeType.TARGET →
            nodeU.layer < nodeV.layer)) :=
  ⟨by decide, by decide,
    C4_layer_monotonic_amended oracle7 sql7 (by decide) (by decide) (by decide) (by decide)
      (mkEdge "cte_c1" "cte_c2") (by decide) nodeU nodeV (by decide) (by decide) rfl rfl⟩


/-! ### Claim C6 (amended): edge deduplication by endpoint pair -/

/-- The node found under a CTE name carries the tagged CTE id. -/
theorem bgNm_cteName_id {o : SqlOracle} {sql : String} {c : CteDefinition}
    (hc : c ∈ bgCtes o sql) {n : LineageNode}
    (hn : bgNm o sql (lower c.name) = some n) : n.id = "cte_" ++ lower c.name := by
  have hk : lower c.name ∈ cteNamesOf (bgCtes o sql) :=
    List.mem_map_of_mem (fun c => lower c.name) hc
  rcases bgNm_shape hn with ⟨_, _, hni⟩ | ⟨_, hid, _⟩ | ⟨_, _, hni⟩
  · exact absurd hk hni
  · exact hid
  · exact absurd hk hni

/-- Endpoint pairs of edges built from one list of referenced names into a
fixed node are distinct when the lower-cased names are distinct. -/
theorem nodup_edge_pairs_filterMap {o : SqlOracle} {sql tid : String} :
    ∀ {l : List String}, (l.map lower).Nodup →
    ((l.filterMap (fun x => (bgNm o sql (lower x)).map (fun n => mkEdge n.id tid))).map
        (fun e => (e.source, e.target))).Nodup := by
  intro l
  induction l with
  | nil => intro _; simp
  | cons x xs ih =>
    intro hl
    rw [List.map_cons, List.nodup_cons] at hl
    rw [List.filterMap_cons]
    rcases hn : bgNm o sql (lower x) with _ | n
    · exact ih hl.2
    · rw [Option.map_some']
      rw [List.map_cons, List.nodup_cons]
      refine ⟨?_, ih hl.2⟩
      intro hmem
      rcases List.mem_map.mp hmem with ⟨e, he, hpe⟩
      rcases List.mem_filterMap.mp he with ⟨y, hy, hmap⟩
      rcases Option.map_eq_some'.mp hmap with ⟨m, hm, rfl⟩
      have hsrc : m.id = n.id := congrArg Prod.fst hpe
      have hkey : lower y = lower x := bgNm_id_inj hm hn hsrc
      exact hl.1 (hkey ▸ List.mem_map_of_mem lower hy)

/-- Endpoint pairs over the CTE edge group are distinct provided the
lower-cased CTE names are distinct and no CTE repeats a lower-cased name
across its source tables and referenced CTEs. -/
theorem nodup_cteEdges_pairs_aux {o : SqlOracle} {sql : String} :
    ∀ (l : List CteDefinition), (∀ c ∈ l, c ∈ bgCtes o sql) →
      (l.map (fun c => lower c.name)).Nodup →
      (∀ c ∈ l, ((c.sourceTables ++ c.referencedCtes).map lower).Nodup) →
      ((l.flatMap (fun cte =>
          match bgNm o sql (lower cte.name) with
          | none => []
          | some cteNode =>
            cte.sourceTables.filterMap
                (fun st => (bgNm o sql (lower st)).map (fun sn => mkEdge sn.id cteNode.id))
              ++ cte.referencedCtes.filterMap
                (fun rc => (bgNm o sql (lower rc)).map (fun rn => mkEdge rn.id cteNode.id)))
        ).map (fun e => (e.source, e.target))).Nodup := by
  intro l
  induction l with
  | nil => intro _ _ _; simp
  | cons c rest ih =>
    intro hsub hd hin
    rw [List.map_cons, List.nodup_cons] at hd
    rw [List.flatMap_cons, List.map_append]
    have hcmem : c ∈ bgCtes o sql := hsub c (List.mem_cons_self _ _)
    refine List.Nodup.append ?_ ?_ ?_
    · rcases hn : bgNm o sql (lower c.name) with _ | cteNode
      · simp
      · show (((c.sourceTables.filterMap
              (fun st => (bgNm o sql (lower st)).map (fun sn => mkEdge sn.id cteNode.id)))
            ++ (c.referencedCtes.filterMap
              (fun rc => (bgNm o sql (lower rc)).map (fun rn => mkEdge rn.id cteNode.id)))).map
            (fun e => (e.source, e.target))).Nodup
        rw [← List.filterMap_append]
        exact nodup_edge_pairs_filterMap (hin c (List.mem_cons_self _ _))
    · exact ih (fun c' hc' => hsub c' (List.mem_cons_of_mem _ hc')) hd.2
        (fun c' hc' => hin c' (List.mem_cons_of_mem _ hc'))
    · intro p hp hp'
      have hsnd : p.2 = "cte_" ++ lower c.name := by
        rcases hn : bgNm o sql (lower c.name) with _ | cteNode
        · rw [hn] at hp
          simp at hp
        · rw [hn] at hp
          rcases List.mem_map.mp hp with ⟨e, he, rfl⟩
          rcases List.mem_append.mp he with hx | hx <;>
          · rcases List.mem_filterMap.mp hx with ⟨y, _, hmap⟩
            rcases Option.map_eq_some'.mp hmap with ⟨m, _, rfl⟩
            exact bgNm_cteName_id hcmem hn
      rcases List.mem_map.mp hp' with ⟨e', he', hpe'⟩
      rcases List.mem_flatMap.mp he' with ⟨c', hc', hec'⟩
      have hc'mem : c' ∈ bgCtes o sql := hsub c' (List.mem_cons_of_mem _ hc')
      have hsnd' : p.2 = "cte_" ++ lower c'.name := by
        rcases hn' : bgNm o sql (lower c'.name) with _ | cteNode'
        · rw [hn'] at hec'
          simp at hec'
        · rw [hn'] at hec'
          rcases List.mem_append.mp hec' with hx | hx <;>
          · rcases List.mem_filterMap.mp hx with ⟨y, _, hmap⟩
            rcases Option.map_eq_some'.mp hmap with ⟨m, _, rfl⟩
            rw [← hpe']
            exact bgNm_cteName_id hc'mem hn'
      have hkey : lower c.name = lower c'.name :=
        append_tag_inj (hsnd.symm.trans hsnd')
      exact hd.1 (hkey ▸ List.mem_map_of_mem (fun c => lower c.name) hc')

/-- C6 (amended): edges are NOT globally deduplicated by endpoint pair —
`C6_counterexample` repeats a pair through the target edge group — but
within the CTE edge group the pairs are distinct whenever the lower-cased
CTE names are distinct and no CTE repeats a lower-cased name across its
source tables and referenced CTEs; hence for a statement with no detected
write target (so only CTE edges exist) the full edge list is deduplicated
by endpoint pair. -/
theorem C6_edge_dedup_amended (o : SqlOracle) (sql : String)
    (hnt : (bgBasic o sql).targets = [])
    (hd : (cteNamesOf (bgCtes o sql)).Nodup)
    (hst : ∀ c ∈ bgCtes o sql, ((c.sourceTables ++ c.referencedCtes).map lower).Nodup) :
    ((buildLineageGraph o sql).edges.map (fun e => (e.source, e.target))).Nodup := by
  have hte : bgTargetEdges o sql = [] := by
    unfold bgTargetEdges
    rw [hnt]
    rfl
  show ((bgCteEdges o sql ++ bgTargetEdges o sql).map (fun e => (e.source, e.target))).Nodup
  rw [hte, List.append_nil]
  exact nodup_cteEdges_pairs_aux (bgCtes o sql) (fun c hc => hc) hd hst

/-- Witness for C6 (amended) on the `oracle3` run: no targets, one CTE,
one (self-loop) edge, so the endpoint pairs are trivially distinct. -/
theorem C6_edge_dedup_amended_witness :
    (bgBasic oracle3 sql3).targets = []
      ∧ (cteNamesOf (bgCtes oracle3 sql3)).Nodup
      ∧ (∀ c ∈ bgCtes oracle3 sql3, ((c.sourceTables ++ c.referencedCtes).map lower).Nodup)
      ∧ ((buildLineageGraph oracle3 sql3).edges.map (fun e => (e.source, e.target))).Nodup :=
  ⟨by decide, by decide, by decide,
    C6_edge_dedup_amended oracle3 sql3 (by decide) (by decide) (by decide)⟩


/-! ### Claim C9: the in-layer sort order -/

theorem nameLe_trans : ∀ a b c : LineageNode,
    nameLe a b = true → nameLe b c = true → nameLe a c = true := by
  intro a b c hab hbc
  simp only [nameLe, decide_eq_true_eq] at hab hbc ⊢
  exact le_trans hab hbc

theorem nameLe_total : ∀ a b : LineageNode, (nameLe a b || nameLe b a) = true := by
  intro a b
  simp only [nameLe, Bool.or_eq_true, decide_eq_true_eq]
  exact le_total a.name b.name

theorem baryLe_trans (bary : String → Option ℚ) :
    ∀ a b c : LineageNode, baryLe bary a b = true → baryLe bary b c = true →
      baryLe bary a c = true := by
  intro a b c hab hbc
  rcases ha : bary a.id with _ | x <;> rcases hb : bary b.id with _ | y <;>
    rcases hc : bary c.id with _ | z <;>
    simp only [baryLe, ha, hb, hc, decide_eq_true_eq, Bool.false_eq_true] at hab hbc ⊢ <;>
    try rfl
  · exact le_trans hab hbc
  · by_cases h1 : x = y
    · subst h1
      rw [if_pos rfl] at hab
      by_cases h2 : x = z
      · subst h2
        rw [if_pos rfl] at hbc ⊢
        simp only [decide_eq_true_eq] at hab hbc ⊢
        exact le_trans hab hbc
      · rw [if_neg h2] at hbc ⊢
        exact hbc
    · rw [if_neg h1] at hab
      by_cases h2 : y = z
      · subst h2
        rw [if_neg h1]
        exact hab
      · rw [if_neg h2] at hbc
        simp only [decide_eq_true_eq] at hab hbc
        by_cases h3 : x = z
        · subst h3
          exact absurd (le_antisymm hab hbc) h1
        · rw [if_neg h3]
          simp only [decide_eq_true_eq]
          exact le_trans hab hbc

theorem baryLe_total (bary : String → Option ℚ) :
    ∀ a b : LineageNode, (baryLe bary a b || baryLe bary b a) = true := by
  intro a b
  rcases ha : bary a.id with _ | x <;> rcases hb : bary b.id with _ | y <;>
    simp only [baryLe, ha, hb, Bool.or_eq_true, decide_eq_true_eq]
  · exact le_total a.name b.name
  · right
    trivial
  · left
    trivial
  · by_cases h : x = y
    · subst h
      rw [if_pos rfl, if_pos rfl]
      simp only [decide_eq_true_eq]
      exact le_total a.name b.name
    · rw [if_neg h, if_neg (fun e => h e.symm)]
      simp only [decide_eq_true_eq]
      exact le_total x y

/-- Spec-side order for later layers, written from the specification text
for comparison with the code comparator `baryLe`: ascending barycenter,
`Infinity` (`none`) last, ties broken alphabetically by display name. -/
def specBaryLe (bary : String → Option ℚ) (a b : LineageNode) : Prop :=
  match bary a.id, bary b.id with
  | some x, some y => x < y ∨ (x = y ∧ a.name ≤ b.name)
  | some _, none => True
  | none, some _ => False
  | none, none => a.name ≤ b.name

/-- The code comparator is exactly the spec-side order. -/
theorem baryLe_iff_spec (bary : String → Option ℚ) (a b : LineageNode) :
    baryLe bary a b = true ↔ specBaryLe bary a b := by
  rcases ha : bary a.id with _ | x <;> rcases hb : bary b.id with _ | y
  · simp [baryLe, specBaryLe, ha, hb]
  · simp [baryLe, specBaryLe, ha, hb]
  · simp [baryLe, specBaryLe, ha, hb]
  · simp only [baryLe, specBaryLe, ha, hb]
    by_cases h : x = y
    · subst h
      rw [if_pos rfl]
      simp [lt_irrefl]
    · rw [if_neg h]
      simp only [decide_eq_true_eq]
      constructor
      · intro hle
        exact Or.inl (lt_of_le_of_ne hle h)
      · intro hsp
        rcases hsp with hlt | ⟨he, _⟩
        · exact le_of_lt hlt
        · exact absurd he h

/-- C9: `sortNodesInLayer` returns a permutation of the layer; on a layer
with at least two nodes, a layer-0 list comes back sorted alphabetically by
display name, and a later layer comes back sorted by ascending barycenter
over the previous layer's order — a node whose barycenter is `Infinity`
(`none`: no incoming edge, or no in-edge source placed in the previous
layer) sorts last, and ties are broken alphabetically by display name. -/
theorem C9_layer_sort_order (graph : LineageGraph)
    (allLayers : List (Nat × List LineageNode))
    (layerNodes : List LineageNode) (n0 : LineageNode) (rest : List LineageNode)
    (hne : layerNodes = n0 :: rest) (hlen : 1 < layerNodes.length) :
    (sortNodesInLayer layerNodes graph allLayers).Perm layerNodes
      ∧ (n0.layer = 0 →
          (sortNodesInLayer layerNodes graph allLayers).Pairwise
            (fun a b => a.name ≤ b.name))
      ∧ (n0.layer ≠ 0 →
          (sortNodesInLayer layerNodes graph allLayers).Pairwise
            (specBaryLe (barycenterOf graph.edges
              (allLayersGet allLayers (n0.layer - 1))))) := by
  subst hne
  have hgt : ¬ ((n0 :: rest).length ≤ 1) := by omega
  by_cases h0 : n0.layer = 0
  · have hs : sortNodesInLayer (n0 :: rest) graph allLayers
        = (n0 :: rest).mergeSort nameLe := by
      simp only [sortNodesInLayer]
      rw [if_neg hgt, if_pos h0]
    refine ⟨?_, ?_, ?_⟩
    · rw [hs]
      exact List.mergeSort_perm _ _
    · intro _
      rw [hs]
      have hp := List.sorted_mergeSort nameLe_trans nameLe_total (n0 :: rest)
      exact hp.imp (fun h => by simpa [nameLe] using h)
    · intro h0'
      exact absurd h0 h0'
  · have hs : sortNodesInLayer (n0 :: rest) graph allLayers
        = (n0 :: rest).mergeSort (baryLe (barycenterOf graph.edges
            (allLayersGet allLayers (n0.layer - 1)))) := by
      simp only [sortNodesInLayer]
      rw [if_neg hgt, if_neg h0]
    refine ⟨?_, ?_, ?_⟩
    · rw [hs]
      exact List.mergeSort_perm _ _
    · intro h0'
      exact absurd h0' h0
    · intro _
      rw [hs]
      have hp := List.sorted_mergeSort
        (baryLe_trans (barycenterOf graph.edges (allLayersGet allLayers (n0.layer - 1))))
        (baryLe_total (barycenterOf graph.edges (allLayersGet allLayers (n0.layer - 1))))
        (n0 :: rest)
      exact hp.imp (fun h => (baryLe_iff_spec _ _ _).mp h)

/-- Two layer-0 nodes for the C9 witness. -/
def w9a : LineageNode :=
  { id := "source_b", name := "b", fullName := "b"
    nodeType := NodeType.SOURCE, statementType := none, layer := 0 }

/-- Second layer-0 node for the C9 witness. -/
def w9b : LineageNode :=
  { id := "source_a", name := "a", fullName := "a"
    nodeType := NodeType.SOURCE, statementType := none, layer := 0 }

/-- Empty graph used by the C9 witness. -/
def w9graph : LineageGraph := { nodes := [], edges := [], queryPreview := "" }

/-- Witness for C9 on a concrete two-node layer. -/
theorem C9_layer_sort_order_witness :
    ([w9a, w9b] : List LineageNode) = w9a :: [w9b]
      ∧ 1 < ([w9a, w9b] : List LineageNode).length
      ∧ ((sortNodesInLayer [w9a, w9b] w9graph []).Perm [w9a, w9b]
          ∧ (w9a.layer = 0 →
              (sortNodesInLayer [w9a, w9b] w9graph []).Pairwise
                (fun a b => a.name ≤ b.name))
          ∧ (w9a.layer ≠ 0 →
              (sortNodesInLayer [w9a, w9b] w9graph []).Pairwise
                (specBaryLe (barycenterOf w9graph.edges
                  (allLayersGet [] (w9a.layer - 1)))))) :=
  ⟨rfl, by decide,
    C9_layer_sort_order w9graph [] [w9a, w9b] w9a [w9b] rfl (by decide)⟩

end VsBq
